import Mathlib

/-
  Verification of the DNA Fragment Grouper pipeline (DNA_fragments.py).

  Strings are modelled as `List Char`; pandas DataFrames as lists of row
  structures; the Python `set` objects as duplicate-free lists (only
  membership and size are observed); the uninitialised `np.empty` label
  array as a list of `Option Nat` (with `none` marking a never-written,
  hence garbage, entry); exceptions as `Option` results; and the unseeded
  random filler generator as an explicitly quantified filler string.
-/

set_option maxHeartbeats 1600000
set_option maxRecDepth 16000

namespace DNAFrag

/-! ## Enzyme recognition motifs (module-level constants of the source) -/

def BsmBI : List Char := "CGTCTC".data
def BsmBI_rev : List Char := "GAGACG".data
def BsaI : List Char := "GGTCTC".data
def BsaI_rev : List Char := "GAGACC".data
def BbsI : List Char := "GAAGACT".data
def BbsI_rev : List Char := "AGTCTTC".data
def BspMI : List Char := "ACCTGCTTA".data
def BspMI_rev : List Char := "TAAGCAGGT".data

def NUCL : List Char := ['A', 'T', 'C', 'G']

def MIN_LENGTH : Nat := 301
def MAX_LENGTH : Nat := 499

/-! ## Python string primitives -/

/-- Boolean prefix test on character lists (argument order: pattern,
then the list it may begin). -/
def isPre : List Char → List Char → Bool
  | [], _ => true
  | _ :: _, [] => false
  | a :: as, b :: bs => a == b && isPre as bs

/-- Recursion core of `replaceAll`: the scan shortens the string at every
step, so `fuel = l.length` always reaches the `[]` base case (the fuel-0
branch is never taken from the wrapper below). -/
def replaceAllGo (pat repl : List Char) : Nat → List Char → List Char
  | _, [] => []
  | 0, l => l
  | fuel + 1, c :: cs =>
    if isPre pat (c :: cs) then
      repl ++ replaceAllGo pat repl fuel (cs.drop (pat.length - 1))
    else c :: replaceAllGo pat repl fuel cs

/-- Python `s.replace(old, new)` for a nonempty pattern: replace every
non-overlapping occurrence of `pat`, scanning left to right. -/
def replaceAll (pat repl l : List Char) : List Char := replaceAllGo pat repl l.length l

/-- Recursion core of `countNonOv`, fueled like `replaceAllGo`. -/
def countNonOvGo (pat : List Char) : Nat → List Char → Nat
  | _, [] => 0
  | 0, _ => 0
  | fuel + 1, c :: cs =>
    if isPre pat (c :: cs) then 1 + countNonOvGo pat fuel (cs.drop (pat.length - 1))
    else countNonOvGo pat fuel cs

/-- `len(s.split(pat)) - 1` for a nonempty `pat`: the number of
non-overlapping occurrences of `pat` in the string, counted greedily left
to right (exactly the occurrences that Python `split` cuts at). -/
def countNonOv (pat l : List Char) : Nat := countNonOvGo pat l.length l

/-- `pat in s` as a Boolean: does `pat` occur as a contiguous substring? -/
def occursIn (pat : List Char) : List Char → Bool
  | [] => pat.isEmpty
  | c :: cs => isPre pat (c :: cs) || occursIn pat cs

/-- Clamp a Python (possibly negative) index into `[0, len]`,
as slicing does: negative indices count from the end. -/
def pyIdx (len : Nat) (k : Int) : Nat :=
  if 0 ≤ k then min k.toNat len else len - min (-k).toNat len

/-- Python `s[:k]`. -/
def pySliceTo (s : List Char) (k : Int) : List Char := s.take (pyIdx s.length k)

/-- Python `s[k:]`. -/
def pySliceFrom (s : List Char) (k : Int) : List Char := s.drop (pyIdx s.length k)

/-- Python `s.find(pat, start)` (for `start ≥ 0`): smallest position
`p ≥ start` at which `pat` occurs (whole match inside `s`), else `-1`. -/
def pyFindI (s pat : List Char) (start : Int) : Int :=
  match (List.range (s.length + 1)).find?
      (fun p => decide (start ≤ Int.ofNat p) && isPre pat (s.drop p)) with
  | some p => (p : Int)
  | none => -1

/-- The `while find != -1 and i != n` scanning loop of `nth_repl`,
advancing `find` to the next (possibly overlapping) occurrence and
counting in `i`.  `find` strictly increases and is bounded by the string
length, so `s.length + 2` units of fuel always suffice to reach the
loop's own exit condition. -/
def findLoop (s old : List Char) (n : Nat) : Nat → Int → Nat → Int × Nat
  | 0, find, i => (find, i)
  | fuel + 1, find, i =>
    if find ≠ -1 ∧ i ≠ n then findLoop s old n fuel (pyFindI s old (find + 1)) (i + 1)
    else (find, i)

/-- `nth_repl(s, old, new, n)`: replace the n-th occurrence of `old` in `s`
by `new`.  Returns `none` exactly when the Python code raises: the guard
`i <= len(s.split(old)) - 1` calls `split` with an empty separator, a
`ValueError`, whenever `old` is empty and the scan counter reached `n`
(the `and` short-circuits, so no error is raised when `i != n`). -/
def nth_repl (s old new : List Char) (n : Nat) : Option (List Char) :=
  let f0 : Int := pyFindI s old 0
  let r := findLoop s old n (s.length + 2) f0 (if f0 = -1 then 0 else 1)
  if r.2 = n then
    if old = [] then none
    else if r.2 ≤ countNonOv old s then
      some (pySliceTo s r.1 ++ new ++ pySliceFrom s (r.1 + (old.length : Int)))
    else some s
  else some s

/-! ## The cut-site substitution chain of `replace_cut_sites_and_pad` -/

/-- The four ordinal substitutions applied to every group sequence, in the
source's order: second `BsmBI` → `BbsI`, second `BsmBI_rev` → `BbsI_rev`,
then (on the result) second `BsmBI` → `BspMI`, second `BsmBI_rev` →
`BspMI_rev`.  A raised error propagates (never happens: motifs are
nonempty). -/
def cutChain (s : List Char) : Option (List Char) :=
  (nth_repl s BsmBI BbsI 2).bind fun s1 =>
  (nth_repl s1 BsmBI_rev BbsI_rev 2).bind fun s2 =>
  (nth_repl s2 BsmBI BspMI 2).bind fun s3 =>
  nth_repl s3 BsmBI_rev BspMI_rev 2

/-- The chain as claim C7 words it (steps 3 and 4 replace the second
occurrence of alternate motif A, `BbsI`, and its reverse complement by
alternate motif B) — for comparison against the source's `cutChain`. -/
def cutChainSpec (s : List Char) : Option (List Char) :=
  (nth_repl s BsmBI BbsI 2).bind fun s1 =>
  (nth_repl s1 BsmBI_rev BbsI_rev 2).bind fun s2 =>
  (nth_repl s2 BbsI BspMI 2).bind fun s3 =>
  nth_repl s3 BbsI_rev BspMI_rev 2

/-! ## Padding and scrubbing -/

/-- The eight recognition / reverse-complement motifs, in the order the
padding scrub iterates over them. -/
def cutList : List (List Char) :=
  [BsmBI, BsaI, BbsI, BspMI, BsmBI_rev, BsaI_rev, BbsI_rev, BspMI_rev]

/-- The fixed neutral filler string substituted for any motif found in the
randomly generated padding. -/
def neutral : List Char := "ATCCGATGGTC".data

/-- The scrub pass over the random padding: for each of the eight motifs in
turn, replace all its occurrences by `neutral`. -/
def padScrub (filler : List Char) : List Char :=
  cutList.foldl (fun p cut => replaceAll cut neutral p) filler

/-- The padding step of `replace_cut_sites_and_pad`: if the rewritten
sequence is shorter than 300, append the scrubbed random filler.  The
random draw `random.choices(NUCL, k=MIN_LENGTH - len(new_seq))` is
modelled by the explicit `filler` argument (of length
`MIN_LENGTH - s.length`, over the `NUCL` alphabet). -/
def padStep (s filler : List Char) : List Char :=
  if s.length < 300 then s ++ padScrub filler else s

/-! ## Loader / assembler (`pipeline`) -/

/-- A row of the input table: columns `Name`, `Author`, `Sequence`
(already uppercased by the loader; case does not affect lengths). -/
structure InRow where
  name : List Char
  author : List Char
  seq : List Char
deriving DecidableEq

/-- `df_large = df[df["Sequence"].apply(len) >= 400]`. -/
def dfLarge (rows : List InRow) : List InRow :=
  rows.filter (fun r => decide (400 ≤ r.seq.length))

/-- `df = df[df["Sequence"].apply(len) < MAX_LENGTH]` — the subset kept
for distance computation, clustering and packing. -/
def dfPackable (rows : List InRow) : List InRow :=
  rows.filter (fun r => decide (r.seq.length < MAX_LENGTH))

/-- A row of the grouped output table: `Group`, `Sequence`, `Name` (list
of constituent names), `Length`. -/
structure GRow where
  group : Nat
  seq : List Char
  names : List (List Char)
  len : Nat
deriving DecidableEq

/-- `grouped["Group"].max() if not grouped.empty else 0` (group ids are
naturals, so the fold from 0 agrees with `max` on nonempty tables). -/
def maxGroup (grouped : List GRow) : Nat :=
  grouped.foldl (fun m r => max m r.group) 0

/-- The assembler loop of `pipeline`: re-attach each large fragment as its
own row, with group ids `max_group + 1, max_group + 2, …`. -/
def attachLarge (grouped : List GRow) (large : List InRow) : List GRow :=
  grouped ++ large.enum.map
    (fun p => ⟨maxGroup grouped + p.1 + 1, p.2.seq, [p.2.name], p.2.seq.length⟩)

/-! ## `group_fragments` -/

/-- A row of the DataFrame handed to `group_fragments`: its `Sequence`
and `Cluster` columns (the other columns are never read by the packer). -/
structure Row where
  seq : List Char
  cluster : Int
deriving DecidableEq

/-- The mutable state of `group_fragments` across passes:
`used_fragments` (a set of strings, kept as a duplicate-free list),
`group_labels` (`np.empty`: `none` = never written), `group_counter`,
`iter_counter`. -/
structure PackState where
  used : List (List Char)
  labels : List (Option Nat)
  counter : Nat
  iter : Nat
deriving DecidableEq

/-- The per-pass accumulator: `group`, `total_length`, `clusters`
(the two sets are kept as lists; only membership, emptiness and length
are observed). -/
structure PassAcc where
  group : List (List Char)
  totalLength : Nat
  clusters : List Int
deriving DecidableEq

/-- One iteration of `for idx, row in df.iterrows()` inside a pass. -/
def stepRow (maxLength : Nat) (st : PassAcc × PackState) (p : Nat × Row) :
    PassAcc × PackState :=
  let a := st.1
  let s := st.2
  let idx := p.1
  let row := p.2
  if row.seq ∈ s.used then st
  else if a.group.length < 3 ∧ a.totalLength + row.seq.length ≤ maxLength ∧
      row.cluster ∉ a.clusters then
    (⟨a.group ++ [row.seq], a.totalLength + row.seq.length, row.cluster :: a.clusters⟩,
     ⟨row.seq :: s.used, s.labels.set idx (some s.counter), s.counter, s.iter⟩)
  else if a.group = [] ∧ 500 ≤ row.seq.length then
    (a, ⟨row.seq :: s.used, s.labels.set idx (some s.counter), s.counter + 1, s.iter⟩)
  else st

/-- The row scan of one pass, `idx` tracking the positional index. -/
def passGo (maxLength : Nat) : Nat → List Row → PassAcc × PackState → PassAcc × PackState
  | _, [], st => st
  | idx, r :: rs, st => passGo maxLength (idx + 1) rs (stepRow maxLength st (idx, r))

/-- One full pass of the `while` loop: scan all rows with a fresh
accumulator, then `group_counter += 1; iter_counter += 1`. -/
def runPass (rows : List Row) (maxLength : Nat) (st : PackState) : PackState :=
  let s2 := (passGo maxLength 0 rows (⟨[], 0, []⟩, st)).2
  ⟨s2.used, s2.labels, s2.counter + 1, s2.iter + 1⟩

/-- The `while len(used_fragments) < len(fragments)` loop, with the
`if iter_counter > bound: break` safety exit.  `fuel` only bounds the
recursion; with `fuel ≥ bound + 1 - iter` the safety exit always fires
first, so the function computes the loop's actual semantics (made precise
by the fuel-irrelevance theorem below). -/
def packLoop (rows : List Row) (maxLength bound : Nat) : Nat → PackState → PackState
  | 0, st => st
  | fuel + 1, st =>
    if st.used.length < rows.length then
      let st2 := runPass rows maxLength st
      if bound < st2.iter then st2
      else packLoop rows maxLength bound fuel st2
    else st

/-- The initial state of `group_fragments`. -/
def initState (n : Nat) : PackState := ⟨[], List.replicate n none, 0, 0⟩

/-- The final state of `group_fragments` on `rows` (safety bound
`3 * len(fragments)`, as in the source). -/
def packFinal (rows : List Row) (maxLength : Nat := MAX_LENGTH) : PackState :=
  packLoop rows maxLength (3 * rows.length) (3 * rows.length + 1) (initState rows.length)

/-- `group_fragments`, observed through its `Group` column: the label
(`none` = the corresponding `np.empty` cell was never written). -/
def group_fragments (rows : List Row) (maxLength : Nat := MAX_LENGTH) : List (Option Nat) :=
  (packFinal rows maxLength).labels

/-- The member rows of group `g`: the rows whose label is `some g`. -/
def groupRows (rows : List Row) (labels : List (Option Nat)) (g : Nat) : List Row :=
  ((rows.zip labels).filter (fun p => decide (p.2 = some g))).map (fun p => p.1)

/-- The packing invariant of one group: if it is non-singleton, its total
member length is within `maxL` and its member cluster ids are pairwise
distinct. -/
def GroupOK (rows : List Row) (labels : List (Option Nat)) (maxL g : Nat) : Prop :=
  2 ≤ (groupRows rows labels g).length →
    ((groupRows rows labels g).map (fun r => r.seq.length)).sum ≤ maxL ∧
    ((groupRows rows labels g).map (fun r => r.cluster)).Nodup

/-! ## `apply_aggressive_grouping` -/

/-- A row of the packed table as the aggressive merger sees it: its
`Group` id plus all remaining columns (opaque payload `rest`). -/
structure AggRow (α : Type) where
  group : Nat
  rest : α
deriving DecidableEq

/-- The singleton group ids, in the order `df.groupby("Group")` yields
them: distinct keys sorted ascending, restricted to groups of size 1. -/
def singletonIds (gs : List Nat) : List Nat :=
  ((gs.dedup.insertionSort (· ≤ ·)).filter (fun g => decide (gs.count g = 1)))

/-- The ids with a single row, in first-appearance order of the `Group`
column — the reading of "original relative order" in claim C8, for
comparison with the source's sorted `groupby` order. -/
def firstAppearance (seen : List Nat) : List Nat → List Nat
  | [] => []
  | g :: gs => if g ∈ seen then firstAppearance seen gs
               else g :: firstAppearance (g :: seen) gs

/-- Claim C8's singleton list: first-appearance order instead of the
sorted order `groupby` actually produces. -/
def singletonIdsSpec (gs : List Nat) : List Nat :=
  (firstAppearance [] gs).filter (fun g => decide (gs.count g = 1))

/-- The `for i, gid in enumerate(singleton_groups)` loop: remember the
batch head on `i % 3 == 0`, otherwise reassign `gid`'s rows to it. -/
def applyBatches {α : Type} : Nat → Nat → List Nat → List (AggRow α) → List (AggRow α)
  | _, _, [], d => d
  | i, new, gid :: rest, d =>
    if i % 3 = 0 then applyBatches (i + 1) gid rest d
    else applyBatches (i + 1) new rest
      (d.map (fun r => if r.group = gid then ⟨new, r.rest⟩ else r))

/-- `apply_aggressive_grouping` (the initial `new` value is irrelevant:
`i = 0` sets it before any reassignment reads it). -/
def apply_aggressive_grouping {α : Type} (d : List (AggRow α)) : List (AggRow α) :=
  applyBatches 0 0 (singletonIds (d.map (fun r => r.group))) d

/-- The same loop run on the first-appearance singleton list — the
behaviour claim C8 describes. -/
def aggressiveSpec {α : Type} (d : List (AggRow α)) : List (AggRow α) :=
  applyBatches 0 0 (singletonIdsSpec (d.map (fun r => r.group))) d

/-- The net effect of the batch loop on one group id, computed per batch
of three consecutive singleton ids: the second and third id of a batch
collapse into the first; everything else is untouched. -/
def aggMapFn : List Nat → Nat → Nat
  | [], g => g
  | [_], g => g
  | [a, b], g => if g = b then a else g
  | a :: b :: c :: rest, g => if g = b ∨ g = c then a else aggMapFn rest g

/-! ## Progress emissions (`compute_distance_matrix`, `pipeline`) -/

/-- `step = max(1, n // 100)`. -/
def progStep (n : Nat) : Nat := max 1 (n / 100)

/-- The loop indices at which `compute_distance_matrix` invokes the
progress callback (`i % step == 0`). -/
def distCallIdxs (n : Nat) : List Nat :=
  (List.range n).filter (fun i => decide (i % progStep n = 0))

/-- All percentages `compute_distance_matrix` emits, in order: the in-loop
values `(i / n) * 80 + 2` and the final `90`. -/
def distanceEmissions (n : Nat) : List ℚ :=
  (distCallIdxs n).map (fun i : Nat => (i : ℚ) / (n : ℚ) * 80 + 2) ++ [90]

/-- The percentages `group_fragments` emits: one value
`90 + (len(used)/len(fragments)) * 5` at the end of each executed pass. -/
def packTrace (rows : List Row) (maxLength bound : Nat) : Nat → PackState → List ℚ
  | 0, _ => []
  | fuel + 1, st =>
    if st.used.length < rows.length then
      let st2 := runPass rows maxLength st
      let e : ℚ := 90 + ((st2.used.length : ℚ) / (rows.length : ℚ)) * 5
      if bound < st2.iter then [e]
      else e :: packTrace rows maxLength bound fuel st2
    else []

/-- The packable rows handed to `group_fragments` by `pipeline`: the
packable sequences tagged with the cluster ids produced by the clustering
stage (an external primitive, modelled as the given `clusters` list). -/
def packInput (rows : List InRow) (clusters : List Int) : List Row :=
  (dfPackable rows).zipWith (fun r c => Row.mk r.seq c) clusters

/-- Every percentage a successful `pipeline` run passes to the progress
callback, in emission order: `0`, `2`, the distance-stage emissions, `90`
after clustering, the per-pass packing emissions, `98`, `100`. -/
def pipeline_emissions (rows : List InRow) (clusters : List Int) : List ℚ :=
  let pr := packInput rows clusters
  [0, 2] ++ distanceEmissions (dfPackable rows).length
    ++ 90 :: (packTrace pr MAX_LENGTH (3 * pr.length) (3 * pr.length + 1)
                (initState pr.length) ++ [98, 100])

/-- A concrete random outcome over `NUCL` refuting claim C4 as stated:
the filler starts with `BspMI_rev`, which the scrub's final pass replaces
by the 11-character neutral string. -/
def fillerBad : List Char := "TAAGCAGGTGTCTC".data ++ List.replicate 277 'A'

/-- Reading one cell of the label array (out of range reads `none`,
matching an uninitialised cell). -/
def labAt (labels : List (Option Nat)) (i : Nat) : Option Nat :=
  (labels.get? i).getD none

/-- Mid-pass invariant of `group_fragments`, tying the per-pass
accumulator `a` to the state `st`: label bookkeeping (a labelled row's
sequence is used and vice versa, labels stay below the counter), every
group other than the one currently accumulating satisfies the packing
invariant, and the accumulator mirrors the current group's members. -/
structure MidInv (rows : List Row) (maxL : Nat) (a : PassAcc) (st : PackState) : Prop where
  labLen : st.labels.length = rows.length
  usedNodup : st.used.Nodup
  labToUsed : ∀ i, (labAt st.labels i).isSome →
    ∃ h : i < rows.length, (rows.get ⟨i, h⟩).seq ∈ st.used
  usedToLab : ∀ x ∈ st.used, ∃ i, ∃ h : i < rows.length,
    (rows.get ⟨i, h⟩).seq = x ∧ (labAt st.labels i).isSome
  labBound : ∀ i g, labAt st.labels i = some g → g ≤ st.counter
  closedOK : ∀ g, g ≠ st.counter → GroupOK rows st.labels maxL g
  curPerm : ((groupRows rows st.labels st.counter).map (fun r => r.cluster)).Perm a.clusters
  curSum : ((groupRows rows st.labels st.counter).map (fun r => r.seq.length)).sum = a.totalLength
  curLen : (groupRows rows st.labels st.counter).length = a.group.length
  curNodup : a.clusters.Nodup
  curBound : a.totalLength ≤ maxL

/-- Between-pass invariant of `group_fragments`: label bookkeeping, all
labels strictly below the counter, and every group satisfying the packing
invariant. -/
structure PackInv (rows : List Row) (maxL : Nat) (st : PackState) : Prop where
  labLen : st.labels.length = rows.length
  usedNodup : st.used.Nodup
  labToUsed : ∀ i, (labAt st.labels i).isSome →
    ∃ h : i < rows.length, (rows.get ⟨i, h⟩).seq ∈ st.used
  usedToLab : ∀ x ∈ st.used, ∃ i, ∃ h : i < rows.length,
    (rows.get ⟨i, h⟩).seq = x ∧ (labAt st.labels i).isSome
  labLt : ∀ i g, labAt st.labels i = some g → g < st.counter
  allOK : ∀ g, GroupOK rows st.labels maxL g

/-!
# Theorems
-/

/-! ## Claim C6: `nth_repl` with fewer occurrences than `n` -/

/-- Core lemma for claims C6 and C7: with a nonempty needle occurring
(non-overlapping) fewer than `n` times, `nth_repl` returns the haystack
unchanged — the `i <= len(s.split(old)) - 1` guard can never accept,
whatever the scanning loop produced. -/
theorem nth_repl_id_of_count_lt (s old new : List Char) (n : Nat)
    (h0 : old ≠ []) (h : countNonOv old s < n) :
    nth_repl s old new n = some s := by
  have key : ∀ r : Int × Nat,
      (if r.2 = n then
        if old = [] then none
        else if r.2 ≤ countNonOv old s then
          some (pySliceTo s r.1 ++ new ++ pySliceFrom s (r.1 + (old.length : Int)))
        else some s
      else some s) = some s := by
    intro r
    by_cases hr : r.2 = n
    · rw [if_pos hr, if_neg h0, hr, if_neg (by omega : ¬ (n ≤ countNonOv old s))]
    · rw [if_neg hr]
  exact key _

/-- C6: for every haystack `s`, nonempty needle `old`, replacement `new`
and count `n`, `nth_repl` returns `s` unchanged whenever `old` occurs
fewer than `n` times in `s`; in particular every ordinal cut-site
substitution step (`n = 2`, nonempty motif) is the identity on a sequence
containing fewer than two occurrences of its target motif.  (Amended from
the claim: the needle must be nonempty — for the empty needle the code
can instead raise `ValueError`, see the counterexample.) -/
theorem nth_repl_unchanged_of_few_occurrences (s old new : List Char) (n : Nat)
    (h0 : old ≠ []) (h : countNonOv old s < n) :
    nth_repl s old new n = some s :=
  nth_repl_id_of_count_lt s old new n h0 h

/-- C6 witness: a concrete instance — one occurrence of `BsmBI`, second
occurrence requested, sequence returned unchanged. -/
theorem nth_repl_unchanged_witness :
    BsmBI ≠ [] ∧ countNonOv BsmBI "ACGTCTCA".data < 2 ∧
      nth_repl "ACGTCTCA".data BsmBI BbsI 2 = some "ACGTCTCA".data :=
  ⟨by decide, by decide,
    nth_repl_unchanged_of_few_occurrences "ACGTCTCA".data BsmBI BbsI 2
      (by decide) (by decide)⟩

/-- C6 counterexample: the claim quantifies over every needle, but for the
empty needle the code raises `ValueError` (from `"A".split("")`) instead
of returning the haystack, even though the empty needle occurs fewer than
`n = 3` times in `"A"` (0 non-overlapping occurrences; Python's own
`"A".count("")` says 2 — fewer than 3 under either count). -/
theorem nth_repl_empty_needle_raises :
    countNonOv ([] : List Char) "A".data < 3 ∧
      nth_repl "A".data [] "X".data 3 = none := by
  constructor
  · decide
  · decide

/-! ## Claim C7: the fixed chain of ordinal substitutions -/

/-- C7 (amended): the rewriter applies exactly four ordinal substitutions
in a fixed chain, each replacing only the second occurrence of its target:
second `BsmBI` → `BbsI` and second `BsmBI_rev` → `BbsI_rev`, then — on
the result — the remaining second occurrence of the primary motif
`BsmBI` → `BspMI` and of `BsmBI_rev` → `BspMI_rev` (not, as the claim
stated, the second occurrence of alternate motif A `BbsI`).  Any step
whose nonempty target has no second occurrence leaves the sequence
unchanged; in particular a sequence with fewer than two occurrences of
`BsmBI` and of `BsmBI_rev` passes through the whole chain unchanged. -/
theorem cutChain_characterization (s : List Char) :
    cutChain s =
      ((nth_repl s BsmBI BbsI 2).bind fun s1 =>
       (nth_repl s1 BsmBI_rev BbsI_rev 2).bind fun s2 =>
       (nth_repl s2 BsmBI BspMI 2).bind fun s3 =>
       nth_repl s3 BsmBI_rev BspMI_rev 2) ∧
    (∀ u t r, t ≠ [] → countNonOv t u < 2 → nth_repl u t r 2 = some u) ∧
    (countNonOv BsmBI s < 2 → countNonOv BsmBI_rev s < 2 → cutChain s = some s) := by
  refine ⟨rfl, fun u t r ht hc => nth_repl_id_of_count_lt u t r 2 ht hc, fun h1 h2 => ?_⟩
  have e1 : nth_repl s BsmBI BbsI 2 = some s :=
    nth_repl_id_of_count_lt s BsmBI BbsI 2 (by decide) h1
  have e2 : nth_repl s BsmBI_rev BbsI_rev 2 = some s :=
    nth_repl_id_of_count_lt s BsmBI_rev BbsI_rev 2 (by decide) h2
  have e3 : nth_repl s BsmBI BspMI 2 = some s :=
    nth_repl_id_of_count_lt s BsmBI BspMI 2 (by decide) h1
  have e4 : nth_repl s BsmBI_rev BspMI_rev 2 = some s :=
    nth_repl_id_of_count_lt s BsmBI_rev BspMI_rev 2 (by decide) h2
  simp [cutChain, e1, e2, e3, e4]

/-- C7 witness: a sequence free of both `BsmBI` orientations passes the
source's chain unchanged. -/
theorem cutChain_witness :
    countNonOv BsmBI "ATATAT".data < 2 ∧ countNonOv BsmBI_rev "ATATAT".data < 2 ∧
      cutChain "ATATAT".data = some "ATATAT".data :=
  ⟨by decide, by decide,
    (cutChain_characterization "ATATAT".data).2.2 (by decide) (by decide)⟩

/-- C7 counterexample: on `GAAGACTGAAGACT` — two occurrences of alternate
motif A (`BbsI`) and none of the primary motif — the source's chain leaves
the sequence unchanged, while the chain the claim describes (whose
steps 3–4 target `BbsI` / `BbsI_rev`) rewrites it; so steps 3–4 of the
code do not replace alternate motif A's remaining second occurrence. -/
theorem cutChain_ne_claimed_chain :
    cutChain "GAAGACTGAAGACT".data = some "GAAGACTGAAGACT".data ∧
    cutChainSpec "GAAGACTGAAGACT".data = some "GAAGACTACCTGCTTA".data ∧
    cutChain "GAAGACTGAAGACT".data ≠ cutChainSpec "GAAGACTGAAGACT".data := by
  refine ⟨by decide, by decide, by decide⟩

/-! ## Claim C4: padding and scrubbing -/

/-- A `replace` pass whose pattern does not occur anywhere is the
identity. -/
theorem replaceAllGo_of_not_occursIn (pat repl : List Char) :
    ∀ (fuel : Nat) (l : List Char), occursIn pat l = false →
      replaceAllGo pat repl fuel l = l := by
  intro fuel
  induction fuel with
  | zero => intro l _; cases l <;> rfl
  | succ fuel ih =>
    intro l hl
    cases l with
    | nil => rfl
    | cons c cs =>
      simp only [occursIn, Bool.or_eq_false_iff] at hl
      rw [replaceAllGo, if_neg (by simp [hl.1]), ih cs hl.2]

/-- Wrapper form of `replaceAllGo_of_not_occursIn`. -/
theorem replaceAll_of_not_occursIn (pat repl l : List Char)
    (h : occursIn pat l = false) : replaceAll pat repl l = l :=
  replaceAllGo_of_not_occursIn pat repl l.length l h

/-- A Boolean prefix is no longer than the list it begins. -/
theorem length_le_of_isPre : ∀ pat l : List Char, isPre pat l = true →
    pat.length ≤ l.length := by
  intro pat
  induction pat with
  | nil => intro l _; simp
  | cons a as ih =>
    intro l h
    cases l with
    | nil => simp [isPre] at h
    | cons b bs =>
      rw [isPre, Bool.and_eq_true] at h
      simpa using Nat.succ_le_succ (ih bs h.2)

/-- Replacing a nonempty pattern by a string at least as long never
shortens the string. -/
theorem length_le_replaceAllGo (pat repl : List Char) (h0 : pat ≠ [])
    (hr : pat.length ≤ repl.length) :
    ∀ (fuel : Nat) (l : List Char), l.length ≤ fuel →
      l.length ≤ (replaceAllGo pat repl fuel l).length := by
  have hpat1 : 1 ≤ pat.length := by
    cases pat with
    | nil => exact absurd rfl h0
    | cons a as => simp
  intro fuel
  induction fuel with
  | zero =>
    intro l hl
    have hnil : l = [] := List.eq_nil_of_length_eq_zero (Nat.le_zero.mp hl)
    subst hnil
    simp [replaceAllGo]
  | succ fuel ih =>
    intro l hl
    cases l with
    | nil => simp [replaceAllGo]
    | cons c cs =>
      simp only [List.length_cons] at hl
      by_cases hp : isPre pat (c :: cs) = true
      · have hple := length_le_of_isPre pat (c :: cs) hp
        simp only [List.length_cons] at hple
        have hrec := ih (cs.drop (pat.length - 1)) (by simp [List.length_drop]; omega)
        rw [replaceAllGo, if_pos hp]
        simp only [List.length_append, List.length_cons, List.length_drop] at hrec ⊢
        omega
      · rw [replaceAllGo, if_neg hp]
        have hrec := ih cs (by omega)
        simp only [List.length_cons]
        omega

/-- A fold of `replace` passes whose patterns all avoid the string is the
identity. -/
theorem foldl_replaceAll_id (repl : List Char) :
    ∀ (cuts : List (List Char)) (p : List Char),
      (∀ c ∈ cuts, occursIn c p = false) →
      cuts.foldl (fun q cut => replaceAll cut repl q) p = p := by
  intro cuts
  induction cuts with
  | nil => intro p _; rfl
  | cons c cs ih =>
    intro p hp
    have h1 : replaceAll c repl p = p :=
      replaceAll_of_not_occursIn c repl p (hp c (by simp))
    rw [List.foldl_cons, h1]
    exact ih p (fun d hd => hp d (by simp [hd]))

/-- A fold of `replace` passes with nonempty patterns no longer than the
replacement never shortens the string. -/
theorem foldl_replaceAll_length (repl : List Char) :
    ∀ (cuts : List (List Char)) (p : List Char),
      (∀ c ∈ cuts, c ≠ [] ∧ c.length ≤ repl.length) →
      p.length ≤ (cuts.foldl (fun q cut => replaceAll cut repl q) p).length := by
  intro cuts
  induction cuts with
  | nil => intro p _; simp
  | cons c cs ih =>
    intro p hp
    rw [List.foldl_cons]
    have h1 : p.length ≤ (replaceAll c repl p).length :=
      length_le_replaceAllGo c repl (hp c (by simp)).1 (hp c (by simp)).2 p.length p le_rfl
    exact le_trans h1 (ih _ (fun d hd => hp d (by simp [hd])))

/-- The scrub is the identity on a filler containing none of the eight
motifs. -/
theorem padScrub_of_clean (filler : List Char)
    (h : ∀ c ∈ cutList, occursIn c filler = false) : padScrub filler = filler :=
  foldl_replaceAll_id neutral cutList filler h

/-- The scrub never shortens the filler (every motif is shorter than the
11-character neutral replacement). -/
theorem length_le_padScrub (filler : List Char) :
    filler.length ≤ (padScrub filler).length :=
  foldl_replaceAll_length neutral cutList filler (by decide)

/-- C4 (amended): for a rewritten sequence of length `L < 300` and any
outcome `filler` of the random generator (length `301 - L`), the padding
step produces a sequence of length at least 301 — and of length exactly
301, with the filler appended verbatim, whenever the raw filler contains
no occurrence of any of the 8 recognition / reverse-complement motifs.
(Amended from the claim: the scrub replaces motifs by the 11-character
string `ATCCGATGGTC`, which can lengthen the result beyond 301 and can
even create a motif spanning a replacement boundary — see the
counterexample.) -/
theorem padStep_length (s filler : List Char) (hL : s.length < 300)
    (hk : filler.length = MIN_LENGTH - s.length) :
    MIN_LENGTH ≤ (padStep s filler).length ∧
    ((∀ c ∈ cutList, occursIn c filler = false) →
      padStep s filler = s ++ filler ∧ (padStep s filler).length = MIN_LENGTH) := by
  have hps : padStep s filler = s ++ padScrub filler := by simp [padStep, hL]
  constructor
  · rw [hps, List.length_append]
    have hle := length_le_padScrub filler
    simp only [MIN_LENGTH] at hk ⊢
    omega
  · intro hclean
    have hsc := padScrub_of_clean filler hclean
    rw [hps, hsc]
    refine ⟨rfl, ?_⟩
    rw [List.length_append]
    simp only [MIN_LENGTH] at hk ⊢
    omega

/-- C4 witness: an all-`A` filler is motif-free, so a length-10 sequence
pads to exactly 301 with the filler appended verbatim. -/
theorem padStep_length_witness :
    MIN_LENGTH ≤ (padStep (List.replicate 10 'A') (List.replicate 291 'A')).length ∧
    ((∀ c ∈ cutList, occursIn c (List.replicate 291 'A') = false) →
      padStep (List.replicate 10 'A') (List.replicate 291 'A') =
        List.replicate 10 'A' ++ List.replicate 291 'A' ∧
      (padStep (List.replicate 10 'A') (List.replicate 291 'A')).length = MIN_LENGTH) :=
  padStep_length (List.replicate 10 'A') (List.replicate 291 'A') (by decide) (by decide)

/-- C4 counterexample: for the length-10 sequence and the filler
`fillerBad` (a legal outcome of the random generator: correct length 291,
all characters in `NUCL`), the padded result has length 303, not exactly
301 = max(L, 301), and the appended region even contains the `BsmBI`
recognition motif (the scrub's replacement string ends in `C` and the
following filler characters are `GTCTC`). -/
theorem padStep_cex :
    (List.replicate 10 'A' : List Char).length < 300 ∧
    fillerBad.length = MIN_LENGTH - (List.replicate 10 'A' : List Char).length ∧
    (∀ c ∈ fillerBad, c ∈ NUCL) ∧
    (padStep (List.replicate 10 'A') fillerBad).length = 303 ∧
    occursIn BsmBI (padScrub fillerBad) = true := by
  refine ⟨by decide, by decide, by decide, by decide, by decide⟩

/-! ## Claim C1: partition of the input and re-attachment of long fragments -/

/-- Any initial segment value is a lower bound of the `maxGroup` fold. -/
theorem init_le_foldl_max : ∀ (l : List GRow) (init : Nat),
    init ≤ l.foldl (fun m r => max m r.group) init := by
  intro l
  induction l with
  | nil => intro init; exact le_rfl
  | cons a as ih =>
    intro init
    exact le_trans (Nat.le_max_left init a.group) (ih (max init a.group))

/-- Every group id in the table is bounded by the `maxGroup` fold. -/
theorem mem_le_foldl_max : ∀ (l : List GRow) (init : Nat), ∀ gr ∈ l,
    gr.group ≤ l.foldl (fun m r => max m r.group) init := by
  intro l
  induction l with
  | nil => intro _ gr hgr; cases hgr
  | cons a as ih =>
    intro init gr hgr
    rcases List.mem_cons.mp hgr with h | h
    · subst h
      exact le_trans (Nat.le_max_right init gr.group) (init_le_foldl_max as _)
    · exact ih (max init a.group) gr h

/-- C1 (amended): the loader keeps every fragment of length at least 400
in the "long" subset and every fragment of length below 499 in the
packable subset — so the two subsets overlap exactly on the fragments of
length in `[400, 499)`, and only fragments of length at least 499 are
excluded from packing; the assembler appends the long fragments after the
packed table, each with its own fresh group id
`max_group + 1, max_group + 2, …`, pairwise distinct and strictly larger
than every packed group id, carrying the fragment's sequence unchanged at
the attachment step.  (Amended from the claim: length ≥ 400 does *not*
exclude a fragment from packing — see the counterexample — and the
re-attached rows are subsequently subject to the same cut-site rewriting
pass as every other group.) -/
theorem loader_assembler_characterization (rows : List InRow) (grouped : List GRow)
    (large : List InRow) :
    (∀ r, r ∈ dfLarge rows ↔ r ∈ rows ∧ 400 ≤ r.seq.length) ∧
    (∀ r, r ∈ dfPackable rows ↔ r ∈ rows ∧ r.seq.length < 499) ∧
    (∀ r ∈ rows, 499 ≤ r.seq.length → r ∉ dfPackable rows) ∧
    ((attachLarge grouped large).take grouped.length = grouped) ∧
    (((attachLarge grouped large).drop grouped.length).map (fun g => g.group) =
      (List.range large.length).map (fun j => maxGroup grouped + j + 1)) ∧
    (((attachLarge grouped large).drop grouped.length).map (fun g => g.seq) =
      large.map (fun r => r.seq)) ∧
    ((((attachLarge grouped large).drop grouped.length).map (fun g => g.group)).Nodup ∧
      ∀ a ∈ ((attachLarge grouped large).drop grouped.length).map (fun g => g.group),
        ∀ gr ∈ grouped, gr.group < a) := by
  have hmap : ∀ {β : Type} (f : Nat × InRow → β),
      (large.enum.map f) = ((List.range large.length).zip large).map f := by
    intro β f
    rw [List.enum_eq_zip_range]
  have hdrop : (attachLarge grouped large).drop grouped.length =
      large.enum.map
        (fun p => (⟨maxGroup grouped + p.1 + 1, p.2.seq, [p.2.name], p.2.seq.length⟩ : GRow)) := by
    simp [attachLarge, List.drop_left]
  have htake : (attachLarge grouped large).take grouped.length = grouped := by
    simp [attachLarge, List.take_left]
  have hzlen : (List.range large.length).length ≤ large.length := by simp
  have hgroups : ((attachLarge grouped large).drop grouped.length).map (fun g => g.group) =
      (List.range large.length).map (fun j => maxGroup grouped + j + 1) := by
    rw [hdrop, List.map_map, hmap]
    have : ((List.range large.length).zip large).map
        ((fun g => GRow.group g) ∘
          (fun p => (⟨maxGroup grouped + p.1 + 1, p.2.seq, [p.2.name], p.2.seq.length⟩ : GRow))) =
        ((List.range large.length).zip large).map
          ((fun j => maxGroup grouped + j + 1) ∘ Prod.fst) := by
      exact List.map_congr_left (fun p _ => rfl)
    rw [this, ← List.map_map, List.map_fst_zip _ _ hzlen]
  refine ⟨?_, ?_, ?_, htake, hgroups, ?_, ?_, ?_⟩
  · intro r
    simp [dfLarge, List.mem_filter]
  · intro r
    simp [dfPackable, MAX_LENGTH, List.mem_filter]
  · intro r _ hlen hmem
    simp [dfPackable, MAX_LENGTH, List.mem_filter] at hmem
    omega
  · rw [hdrop, List.map_map, hmap]
    have : ((List.range large.length).zip large).map
        ((fun g => GRow.seq g) ∘
          (fun p => (⟨maxGroup grouped + p.1 + 1, p.2.seq, [p.2.name], p.2.seq.length⟩ : GRow))) =
        ((List.range large.length).zip large).map ((fun r : InRow => r.seq) ∘ Prod.snd) := by
      exact List.map_congr_left (fun p _ => rfl)
    rw [this, ← List.map_map, List.map_snd_zip _ _ (by simp)]
  · rw [hgroups]
    exact List.Nodup.map (fun a b h => by omega) (List.nodup_range _)
  · intro a ha gr hgr
    rw [hgroups] at ha
    rcases List.mem_map.mp ha with ⟨j, _, hj⟩
    have hle : gr.group ≤ maxGroup grouped := mem_le_foldl_max grouped 0 gr hgr
    omega

/-- C1 witness: a concrete instantiation of the partition
characterization. -/
theorem loader_assembler_witness :
    (⟨"N".data, "B".data, "ACGT".data⟩ : InRow) ∈
        dfLarge [(⟨"N".data, "B".data, "ACGT".data⟩ : InRow)] ↔
      (⟨"N".data, "B".data, "ACGT".data⟩ : InRow) ∈
          [(⟨"N".data, "B".data, "ACGT".data⟩ : InRow)] ∧
        400 ≤ ("ACGT".data : List Char).length :=
  (loader_assembler_characterization [⟨"N".data, "B".data, "ACGT".data⟩] [] []).1 _

/-- C1 counterexample: a fragment of length 400 lands in *both* subsets —
it is packed (length < 499) *and* re-attached by the assembler
(length ≥ 400), so "long" fragments are not excluded from packing and a
fragment can be both packed and re-attached. -/
theorem partition_overlap_cex :
    (⟨"N".data, "B".data, List.replicate 400 'A'⟩ : InRow) ∈
      dfLarge [⟨"N".data, "B".data, List.replicate 400 'A'⟩] ∧
    (⟨"N".data, "B".data, List.replicate 400 'A'⟩ : InRow) ∈
      dfPackable [⟨"N".data, "B".data, List.replicate 400 'A'⟩] := by
  refine ⟨by decide, by decide⟩

/-! ## List infrastructure for the packing invariants -/

theorem labAt_set_self (labels : List (Option Nat)) (i : Nat) (v : Option Nat)
    (h : i < labels.length) : labAt (labels.set i v) i = v := by
  simp [labAt, List.get?_eq_getElem?, List.getElem?_set_self, h]

theorem labAt_set_ne (labels : List (Option Nat)) (i j : Nat) (v : Option Nat)
    (h : i ≠ j) : labAt (labels.set i v) j = labAt labels j := by
  simp [labAt, List.get?_eq_getElem?, List.getElem?_set_ne h]

theorem labAt_replicate (n i : Nat) : labAt (List.replicate n none) i = none := by
  rcases Nat.lt_or_ge i n with h | h
  · simp [labAt, List.get?_eq_getElem?, List.getElem?_replicate, h]
  · have hlen : (List.replicate (α := Option Nat) n none).length ≤ i := by simpa using h
    simp [labAt, List.get?_eq_getElem?, List.getElem?_eq_none hlen]

theorem labAt_of_mem {labels : List (Option Nat)} {x : Option Nat} (h : x ∈ labels) :
    ∃ i, labAt labels i = x := by
  rcases List.mem_iff_get.mp h with ⟨⟨i, hi⟩, rfl⟩
  exact ⟨i, by simp [labAt, List.get?_eq_getElem?, List.getElem?_eq_getElem hi]⟩

theorem zip_set_right {α β : Type} :
    ∀ (l₁ : List α) (l₂ : List β) (i : Nat) (v : β) (h : i < l₁.length),
      l₁.zip (l₂.set i v) = (l₁.zip l₂).set i (l₁.get ⟨i, h⟩, v) := by
  intro l₁
  induction l₁ with
  | nil => intro l₂ i v h; simp at h
  | cons a as ih =>
    intro l₂ i v h
    cases l₂ with
    | nil => simp
    | cons b bs =>
      cases i with
      | zero => simp [List.zip]
      | succ i =>
        simp only [List.zip_cons_cons, List.set_cons_succ]
        rw [ih bs i v (by simpa using Nat.lt_of_succ_lt_succ h)]
        rfl

theorem filter_set_of_false {α : Type} (p : α → Bool) :
    ∀ (l : List α) (i : Nat) (v : α) (h : i < l.length),
      p (l.get ⟨i, h⟩) = false → p v = false →
      (l.set i v).filter p = l.filter p := by
  intro l
  induction l with
  | nil => intro i v h; simp at h
  | cons a as ih =>
    intro i v h hold hv
    cases i with
    | zero =>
      simp only [List.get] at hold
      simp [List.filter_cons, hold, hv]
    | succ i =>
      simp only [List.get] at hold
      have hi : i < as.length := by simpa using Nat.lt_of_succ_lt_succ h
      simp only [List.set_cons_succ, List.filter_cons]
      rw [ih i v hi hold hv]

theorem filter_set_of_true {α : Type} (p : α → Bool) :
    ∀ (l : List α) (i : Nat) (v : α) (h : i < l.length),
      p (l.get ⟨i, h⟩) = false → p v = true →
      ((l.set i v).filter p).Perm (v :: l.filter p) := by
  intro l
  induction l with
  | nil => intro i v h; simp at h
  | cons a as ih =>
    intro i v h hold hv
    cases i with
    | zero =>
      simp only [List.get] at hold
      simp [List.filter_cons, hold, hv]
    | succ i =>
      simp only [List.get] at hold
      have hi : i < as.length := by simpa using Nat.lt_of_succ_lt_succ h
      simp only [List.set_cons_succ, List.filter_cons]
      by_cases ha : p a
      · simp only [ha, if_true]
        exact ((ih i v hi hold hv).cons a).trans (List.Perm.swap v a _)
      · simp only [ha, Bool.false_eq_true, if_false]
        exact ih i v hi hold hv

/-! ## `groupRows` under label updates -/

/-- `labAt` agrees with `get` in range. -/
theorem labAt_lt (labels : List (Option Nat)) (i : Nat) (h : i < labels.length) :
    labAt labels i = labels.get ⟨i, h⟩ := by
  simp [labAt, List.get?_eq_getElem?, List.getElem?_eq_getElem h, List.get_eq_getElem]

/-- The cell of a zip, componentwise. -/
theorem zip_cell (rows : List Row) (labels : List (Option Nat)) (idx : Nat)
    (hz : idx < (rows.zip labels).length) (hidx : idx < rows.length)
    (hidx2 : idx < labels.length) :
    (rows.zip labels).get ⟨idx, hz⟩ = (rows.get ⟨idx, hidx⟩, labels.get ⟨idx, hidx2⟩) := by
  simp [List.get_eq_getElem, List.getElem_zip]

/-- A group no label points to is empty. -/
theorem groupRows_eq_nil_of_ne (rows : List Row) (labels : List (Option Nat)) (g : Nat)
    (hb : ∀ i, labAt labels i ≠ some g) : groupRows rows labels g = [] := by
  unfold groupRows
  rw [List.filter_eq_nil_iff.mpr, List.map_nil]
  intro p hp
  rcases List.of_mem_zip hp with ⟨_, hp2⟩
  rcases labAt_of_mem hp2 with ⟨i, hi⟩
  simp only [decide_eq_true_eq]
  intro hpg
  exact hb i (hpg ▸ hi)

/-- Setting an unlabelled row's cell to a label of a *different* group
leaves that group's member list unchanged. -/
theorem groupRows_set_untouched (rows : List Row) (labels : List (Option Nat))
    (idx : Nat) (v : Option Nat) (g : Nat) (hidx : idx < rows.length)
    (hlen : labels.length = rows.length)
    (hnone : labAt labels idx = none) (hv : v ≠ some g) :
    groupRows rows (labels.set idx v) g = groupRows rows labels g := by
  have hidx2 : idx < labels.length := hlen ▸ hidx
  have hz : idx < (rows.zip labels).length := by
    simpa [List.length_zip, hlen] using hidx
  unfold groupRows
  rw [zip_set_right rows labels idx v hidx]
  rw [filter_set_of_false _ _ idx _ hz ?_ (by simp [hv])]
  rw [zip_cell rows labels idx hz hidx hidx2]
  have hcell : labels.get ⟨idx, hidx2⟩ = none := (labAt_lt labels idx hidx2) ▸ hnone
  simp only [List.get_eq_getElem] at hcell
  simp [hcell]

/-- Setting an unlabelled row's cell to this group's label adds exactly
that row to the group's member list (up to order). -/
theorem groupRows_set_hit (rows : List Row) (labels : List (Option Nat))
    (idx : Nat) (g : Nat) (hidx : idx < rows.length)
    (hlen : labels.length = rows.length)
    (hnone : labAt labels idx = none) :
    (groupRows rows (labels.set idx (some g)) g).Perm
      (rows.get ⟨idx, hidx⟩ :: groupRows rows labels g) := by
  have hidx2 : idx < labels.length := hlen ▸ hidx
  have hz : idx < (rows.zip labels).length := by
    simpa [List.length_zip, hlen] using hidx
  have hcell : labels.get ⟨idx, hidx2⟩ = none := (labAt_lt labels idx hidx2) ▸ hnone
  have hold : (fun p : Row × Option Nat => decide (p.2 = some g))
      ((rows.zip labels).get ⟨idx, hz⟩) = false := by
    rw [zip_cell rows labels idx hz hidx hidx2]
    simp only [List.get_eq_getElem] at hcell
    simp [hcell]
  have hperm := filter_set_of_true (fun p : Row × Option Nat => decide (p.2 = some g))
    (rows.zip labels) idx (rows.get ⟨idx, hidx⟩, some g) hz hold (by simp)
  unfold groupRows
  rw [zip_set_right rows labels idx (some g) hidx]
  have := hperm.map (fun p : Row × Option Nat => p.1)
  simpa using this

/-! ## Preservation of the mid-pass invariant -/

/-- One `stepRow` iteration preserves the mid-pass invariant. -/
theorem stepRow_inv (rows : List Row) (maxL : Nat) (a : PassAcc) (st : PackState)
    (idx : Nat) (row : Row) (hidx : idx < rows.length)
    (hrow : rows.get ⟨idx, hidx⟩ = row)
    (hinv : MidInv rows maxL a st) :
    MidInv rows maxL (stepRow maxL (a, st) (idx, row)).1
      (stepRow maxL (a, st) (idx, row)).2 := by
  by_cases hused : row.seq ∈ st.used
  · simpa [stepRow, hused] using hinv
  have hnone : labAt st.labels idx = none := by
    rcases ho : labAt st.labels idx with _ | g
    · rfl
    · exfalso
      rcases hinv.labToUsed idx (by simp [ho]) with ⟨h, hmem⟩
      rw [hrow] at hmem
      exact hused hmem
  have hlablen : st.labels.length = rows.length := hinv.labLen
  have hidx' : idx < st.labels.length := hlablen ▸ hidx
  by_cases hacc : a.group.length < 3 ∧ a.totalLength + row.seq.length ≤ maxL ∧
      row.cluster ∉ a.clusters
  · -- regular accept branch
    have hres : stepRow maxL (a, st) (idx, row) =
        (⟨a.group ++ [row.seq], a.totalLength + row.seq.length, row.cluster :: a.clusters⟩,
         ⟨row.seq :: st.used, st.labels.set idx (some st.counter), st.counter, st.iter⟩) := by
      simp only [stepRow]
      rw [if_neg hused, if_pos hacc]
    have hhit := groupRows_set_hit rows st.labels idx st.counter hidx hlablen hnone
    rw [hrow] at hhit
    have f1 : (st.labels.set idx (some st.counter)).length = rows.length := by
      simpa using hlablen
    have f2 : (row.seq :: st.used).Nodup := List.nodup_cons.mpr ⟨hused, hinv.usedNodup⟩
    have f3 : ∀ i, (labAt (st.labels.set idx (some st.counter)) i).isSome →
        ∃ h : i < rows.length, (rows.get ⟨i, h⟩).seq ∈ row.seq :: st.used := by
      intro i hi
      by_cases hieq : i = idx
      · subst hieq
        exact ⟨hidx, by rw [hrow]; exact List.mem_cons_self _ _⟩
      · rw [labAt_set_ne _ _ _ _ (fun h => hieq h.symm)] at hi
        rcases hinv.labToUsed i hi with ⟨h, hmem⟩
        exact ⟨h, List.mem_cons_of_mem _ hmem⟩
    have f4 : ∀ x ∈ row.seq :: st.used, ∃ i, ∃ h : i < rows.length,
        (rows.get ⟨i, h⟩).seq = x ∧
          (labAt (st.labels.set idx (some st.counter)) i).isSome := by
      intro x hx
      rcases List.mem_cons.mp hx with hx | hx
      · exact ⟨idx, hidx, by rw [hrow, hx],
          by rw [labAt_set_self _ _ _ hidx']; simp⟩
      · rcases hinv.usedToLab x hx with ⟨i, h, hseq, hsome⟩
        by_cases hieq : i = idx
        · subst hieq
          exact ⟨i, h, hseq, by rw [labAt_set_self _ _ _ hidx']; simp⟩
        · exact ⟨i, h, hseq,
            by rwa [labAt_set_ne _ _ _ _ (fun h' => hieq h'.symm)]⟩
    have f5 : ∀ i g, labAt (st.labels.set idx (some st.counter)) i = some g →
        g ≤ st.counter := by
      intro i g hg
      by_cases hieq : i = idx
      · subst hieq
        rw [labAt_set_self _ _ _ hidx'] at hg
        have : st.counter = g := by simpa using hg
        omega
      · rw [labAt_set_ne _ _ _ _ (fun h' => hieq h'.symm)] at hg
        exact hinv.labBound i g hg
    have f6 : ∀ g, g ≠ st.counter →
        GroupOK rows (st.labels.set idx (some st.counter)) maxL g := by
      intro g hg
      have hne : (some st.counter : Option Nat) ≠ some g := by
        simpa using fun h => hg h.symm
      rw [GroupOK, groupRows_set_untouched rows st.labels idx _ g hidx hlablen hnone hne]
      exact hinv.closedOK g hg
    have f7 : ((groupRows rows (st.labels.set idx (some st.counter)) st.counter).map
        (fun r => r.cluster)).Perm (row.cluster :: a.clusters) := by
      refine (hhit.map (fun r => r.cluster)).trans ?_
      simpa using hinv.curPerm.cons row.cluster
    have f8 : ((groupRows rows (st.labels.set idx (some st.counter)) st.counter).map
        (fun r => r.seq.length)).sum = a.totalLength + row.seq.length := by
      rw [List.Perm.sum_eq (hhit.map (fun r => r.seq.length))]
      simp [hinv.curSum, Nat.add_comm]
    have f9 : (groupRows rows (st.labels.set idx (some st.counter)) st.counter).length =
        (a.group ++ [row.seq]).length := by
      rw [hhit.length_eq]
      simp [hinv.curLen, Nat.add_comm]
    have f10 : (row.cluster :: a.clusters).Nodup :=
      List.nodup_cons.mpr ⟨hacc.2.2, hinv.curNodup⟩
    rw [hres]
    exact ⟨f1, f2, f3, f4, f5, f6, f7, f8, f9, f10, hacc.2.1⟩
  by_cases hbig : a.group = [] ∧ 500 ≤ row.seq.length
  · -- oversized singleton branch
    have hres : stepRow maxL (a, st) (idx, row) =
        (a, ⟨row.seq :: st.used, st.labels.set idx (some st.counter),
             st.counter + 1, st.iter⟩) := by
      simp only [stepRow]
      rw [if_neg hused, if_neg hacc, if_pos hbig]
    have hcur_nil : groupRows rows st.labels st.counter = [] := by
      have hl := hinv.curLen
      rw [hbig.1] at hl
      exact List.length_eq_zero.mp (by simpa using hl)
    have hclusters_nil : a.clusters = [] := by
      have hp := hinv.curPerm
      rw [hcur_nil] at hp
      exact (List.Perm.nil_eq (by simpa using hp)).symm
    have htot_zero : a.totalLength = 0 := by
      have hs := hinv.curSum
      rw [hcur_nil] at hs
      simpa using hs.symm
    have f1 : (st.labels.set idx (some st.counter)).length = rows.length := by
      simpa using hlablen
    have f2 : (row.seq :: st.used).Nodup := List.nodup_cons.mpr ⟨hused, hinv.usedNodup⟩
    have f3 : ∀ i, (labAt (st.labels.set idx (some st.counter)) i).isSome →
        ∃ h : i < rows.length, (rows.get ⟨i, h⟩).seq ∈ row.seq :: st.used := by
      intro i hi
      by_cases hieq : i = idx
      · subst hieq
        exact ⟨hidx, by rw [hrow]; exact List.mem_cons_self _ _⟩
      · rw [labAt_set_ne _ _ _ _ (fun h => hieq h.symm)] at hi
        rcases hinv.labToUsed i hi with ⟨h, hmem⟩
        exact ⟨h, List.mem_cons_of_mem _ hmem⟩
    have f4 : ∀ x ∈ row.seq :: st.used, ∃ i, ∃ h : i < rows.length,
        (rows.get ⟨i, h⟩).seq = x ∧
          (labAt (st.labels.set idx (some st.counter)) i).isSome := by
      intro x hx
      rcases List.mem_cons.mp hx with hx | hx
      · exact ⟨idx, hidx, by rw [hrow, hx],
          by rw [labAt_set_self _ _ _ hidx']; simp⟩
      · rcases hinv.usedToLab x hx with ⟨i, h, hseq, hsome⟩
        by_cases hieq : i = idx
        · subst hieq
          exact ⟨i, h, hseq, by rw [labAt_set_self _ _ _ hidx']; simp⟩
        · exact ⟨i, h, hseq,
            by rwa [labAt_set_ne _ _ _ _ (fun h' => hieq h'.symm)]⟩
    have f5 : ∀ i g, labAt (st.labels.set idx (some st.counter)) i = some g →
        g ≤ st.counter + 1 := by
      intro i g hg
      by_cases hieq : i = idx
      · subst hieq
        rw [labAt_set_self _ _ _ hidx'] at hg
        have : st.counter = g := by simpa using hg
        omega
      · rw [labAt_set_ne _ _ _ _ (fun h' => hieq h'.symm)] at hg
        have := hinv.labBound i g hg
        omega
    have f6 : ∀ g, g ≠ st.counter + 1 →
        GroupOK rows (st.labels.set idx (some st.counter)) maxL g := by
      intro g hg
      by_cases hgc : g = st.counter
      · rw [hgc]
        have hhit := groupRows_set_hit rows st.labels idx st.counter hidx hlablen hnone
        unfold GroupOK
        intro h2
        exfalso
        rw [hhit.length_eq, hcur_nil] at h2
        simp at h2
      · have hne : (some st.counter : Option Nat) ≠ some g := by
          simpa using fun h => hgc h.symm
        rw [GroupOK, groupRows_set_untouched rows st.labels idx _ g hidx hlablen hnone hne]
        exact hinv.closedOK g hgc
    have hnext_nil : groupRows rows (st.labels.set idx (some st.counter))
        (st.counter + 1) = [] := by
      have hne : (some st.counter : Option Nat) ≠ some (st.counter + 1) := by simp
      rw [groupRows_set_untouched rows st.labels idx _ _ hidx hlablen hnone hne]
      refine groupRows_eq_nil_of_ne rows st.labels _ (fun i hi => ?_)
      have := hinv.labBound i _ hi
      omega
    have f7 : ((groupRows rows (st.labels.set idx (some st.counter))
        (st.counter + 1)).map (fun r => r.cluster)).Perm a.clusters := by
      rw [hnext_nil, hclusters_nil]
      rfl
    have f8 : ((groupRows rows (st.labels.set idx (some st.counter))
        (st.counter + 1)).map (fun r => r.seq.length)).sum = a.totalLength := by
      rw [hnext_nil, htot_zero]
      rfl
    have f9 : (groupRows rows (st.labels.set idx (some st.counter))
        (st.counter + 1)).length = a.group.length := by
      rw [hnext_nil, hbig.1]
      rfl
    rw [hres]
    exact ⟨f1, f2, f3, f4, f5, f6, f7, f8, f9, hinv.curNodup, hinv.curBound⟩
  · have hres : stepRow maxL (a, st) (idx, row) = (a, st) := by
      simp only [stepRow]
      rw [if_neg hused, if_neg hacc, if_neg hbig]
    rw [hres]
    exact hinv

/-! ## Frame facts and pass-level preservation -/

/-- `stepRow` never touches `iter_counter` and only grows the used set. -/
theorem stepRow_frame (maxL : Nat) (pr : PassAcc × PackState) (p : Nat × Row) :
    (stepRow maxL pr p).2.iter = pr.2.iter ∧
    pr.2.used ⊆ (stepRow maxL pr p).2.used := by
  simp only [stepRow]
  by_cases h1 : p.2.seq ∈ pr.2.used
  · rw [if_pos h1]
    exact ⟨rfl, fun x hx => hx⟩
  · rw [if_neg h1]
    by_cases h2 : pr.1.group.length < 3 ∧ pr.1.totalLength + p.2.seq.length ≤ maxL ∧
        p.2.cluster ∉ pr.1.clusters
    · rw [if_pos h2]
      exact ⟨rfl, fun x hx => List.mem_cons_of_mem _ hx⟩
    · rw [if_neg h2]
      by_cases h3 : pr.1.group = [] ∧ 500 ≤ p.2.seq.length
      · rw [if_pos h3]
        exact ⟨rfl, fun x hx => List.mem_cons_of_mem _ hx⟩
      · rw [if_neg h3]
        exact ⟨rfl, fun x hx => hx⟩

/-- The row scan never touches `iter_counter` and only grows the used
set. -/
theorem passGo_frame (maxL : Nat) : ∀ (l : List Row) (k : Nat) (pr : PassAcc × PackState),
    (passGo maxL k l pr).2.iter = pr.2.iter ∧
    pr.2.used ⊆ (passGo maxL k l pr).2.used := by
  intro l
  induction l with
  | nil => intro k pr; exact ⟨rfl, fun x hx => hx⟩
  | cons r rs ih =>
    intro k pr
    simp only [passGo]
    rcases ih (k + 1) (stepRow maxL pr (k, r)) with ⟨hiter, hsub⟩
    rcases stepRow_frame maxL pr (k, r) with ⟨hiter0, hsub0⟩
    exact ⟨hiter.trans hiter0, fun x hx => hsub (hsub0 hx)⟩

/-- `runPass` increments `iter_counter` exactly once and only grows the
used set. -/
theorem runPass_frame (rows : List Row) (maxL : Nat) (st : PackState) :
    (runPass rows maxL st).iter = st.iter + 1 ∧
    st.used ⊆ (runPass rows maxL st).used := by
  rcases passGo_frame maxL rows 0 (⟨[], 0, []⟩, st) with ⟨hiter, hsub⟩
  exact ⟨by simp [runPass, hiter], by simpa [runPass] using hsub⟩

/-- The row scan preserves the mid-pass invariant (the scan position
tracks the remaining suffix of the row list). -/
theorem passGo_inv (rows : List Row) (maxL : Nat) :
    ∀ (l : List Row) (k : Nat) (pr : PassAcc × PackState),
      rows.drop k = l → MidInv rows maxL pr.1 pr.2 →
      MidInv rows maxL (passGo maxL k l pr).1 (passGo maxL k l pr).2 := by
  intro l
  induction l with
  | nil => intro k pr _ hinv; exact hinv
  | cons r rs ih =>
    intro k pr hdrop hinv
    have hk : k < rows.length := by
      by_contra hk'
      rw [List.drop_eq_nil_of_le (le_of_not_lt hk')] at hdrop
      exact List.cons_ne_nil r rs hdrop.symm
    have hget : rows.get ⟨k, hk⟩ = r := by
      have h0 : rows[k]? = some r := by
        have hd := List.getElem?_drop rows k 0
        rw [hdrop] at hd
        simpa using hd.symm
      have h1 : rows[k]? = some (rows.get ⟨k, hk⟩) := by
        simp [List.getElem?_eq_getElem hk, List.get_eq_getElem]
      rw [h0] at h1
      exact (Option.some_injective _ h1).symm
    have hdrop' : rows.drop (k + 1) = rs := by
      have ht := List.tail_drop rows k
      rw [hdrop] at ht
      exact ht.symm
    simp only [passGo]
    exact ih (k + 1) (stepRow maxL pr (k, r)) hdrop'
      (stepRow_inv rows maxL pr.1 pr.2 k r hk hget hinv)

/-- The between-pass invariant yields the mid-pass invariant for a fresh
accumulator. -/
theorem midInv_of_packInv {rows : List Row} {maxL : Nat} {st : PackState}
    (h : PackInv rows maxL st) : MidInv rows maxL ⟨[], 0, []⟩ st := by
  have hnil : groupRows rows st.labels st.counter = [] := by
    refine groupRows_eq_nil_of_ne rows st.labels st.counter (fun i hi => ?_)
    have := h.labLt i st.counter hi
    omega
  refine ⟨h.labLen, h.usedNodup, h.labToUsed, h.usedToLab,
    fun i g hg => le_of_lt (h.labLt i g hg), fun g _ => h.allOK g,
    ?_, ?_, ?_, List.nodup_nil, Nat.zero_le _⟩
  · rw [hnil]
    rfl
  · rw [hnil]
    rfl
  · rw [hnil]
    rfl

/-- Closing the pass (incrementing the counters) turns the mid-pass
invariant back into the between-pass invariant. -/
theorem packInv_of_midInv {rows : List Row} {maxL : Nat} {a : PassAcc} {st : PackState}
    (mid : MidInv rows maxL a st) :
    PackInv rows maxL ⟨st.used, st.labels, st.counter + 1, st.iter + 1⟩ := by
  refine ⟨mid.labLen, mid.usedNodup, mid.labToUsed, mid.usedToLab, ?_, ?_⟩
  · intro i g hg
    have := mid.labBound i g hg
    show g < st.counter + 1
    omega
  · intro g
    by_cases hgc : g = st.counter
    · subst hgc
      intro h2
      refine ⟨mid.curSum ▸ mid.curBound, ?_⟩
      exact (mid.curPerm.nodup_iff).mpr mid.curNodup
    · exact mid.closedOK g hgc

/-- One full pass preserves the between-pass invariant. -/
theorem runPass_packInv (rows : List Row) (maxL : Nat) (st : PackState)
    (h : PackInv rows maxL st) : PackInv rows maxL (runPass rows maxL st) := by
  have mid := passGo_inv rows maxL rows 0 (⟨[], 0, []⟩, st) (by simp)
    (midInv_of_packInv h)
  simp only [runPass]
  exact packInv_of_midInv mid

/-- The initial state satisfies the between-pass invariant. -/
theorem initState_packInv (rows : List Row) (maxL : Nat) :
    PackInv rows maxL (initState rows.length) := by
  refine ⟨by simp [initState], List.nodup_nil, ?_, ?_, ?_, ?_⟩
  · intro i hi
    rw [show (initState rows.length).labels = List.replicate rows.length none from rfl,
      labAt_replicate] at hi
    simp at hi
  · intro x hx
    simp [initState] at hx
  · intro i g hg
    rw [show (initState rows.length).labels = List.replicate rows.length none from rfl,
      labAt_replicate] at hg
    simp at hg
  · intro g
    have hnil : groupRows rows (initState rows.length).labels g = [] := by
      refine groupRows_eq_nil_of_ne _ _ _ (fun i => ?_)
      rw [show (initState rows.length).labels = List.replicate rows.length none from rfl,
        labAt_replicate]
      simp
    intro h2
    rw [hnil] at h2
    simp at h2

/-- The whole packing loop preserves the between-pass invariant. -/
theorem packLoop_packInv (rows : List Row) (maxL bound : Nat) :
    ∀ (fuel : Nat) (st : PackState), PackInv rows maxL st →
      PackInv rows maxL (packLoop rows maxL bound fuel st) := by
  intro fuel
  induction fuel with
  | zero => intro st h; exact h
  | succ fuel ih =>
    intro st h
    simp only [packLoop]
    by_cases hlt : st.used.length < rows.length
    · rw [if_pos hlt]
      by_cases hiter : bound < (runPass rows maxL st).iter
      · rw [if_pos hiter]
        exact runPass_packInv rows maxL st h
      · rw [if_neg hiter]
        exact ih (runPass rows maxL st) (runPass_packInv rows maxL st h)
    · rw [if_neg hlt]
      exact h

/-- The final state of `group_fragments` satisfies the between-pass
invariant. -/
theorem packFinal_packInv (rows : List Row) :
    PackInv rows MAX_LENGTH (packFinal rows) :=
  packLoop_packInv rows MAX_LENGTH (3 * rows.length) (3 * rows.length + 1)
    (initState rows.length) (initState_packInv rows MAX_LENGTH)

/-! ## Claim C3: the non-singleton group invariant -/

/-- C3: for every input to `group_fragments` and every group of two or
more members it forms, the total member sequence length is at most 499
and the member cluster ids are pairwise distinct. -/
theorem group_fragments_nonsingleton_invariant (rows : List Row) (g : Nat)
    (h2 : 2 ≤ (groupRows rows (group_fragments rows) g).length) :
    ((groupRows rows (group_fragments rows) g).map (fun r => r.seq.length)).sum ≤ 499 ∧
    ((groupRows rows (group_fragments rows) g).map (fun r => r.cluster)).Nodup :=
  (packFinal_packInv rows).allOK g h2

/-- C3 witness: two short fragments in different clusters form one
two-member group in the first pass. -/
theorem group_fragments_nonsingleton_witness :
    2 ≤ (groupRows [⟨"AAA".data, (0 : Int)⟩, ⟨"TT".data, (1 : Int)⟩]
          (group_fragments [⟨"AAA".data, (0 : Int)⟩, ⟨"TT".data, (1 : Int)⟩]) 0).length ∧
    (((groupRows [⟨"AAA".data, (0 : Int)⟩, ⟨"TT".data, (1 : Int)⟩]
          (group_fragments [⟨"AAA".data, (0 : Int)⟩, ⟨"TT".data, (1 : Int)⟩]) 0).map
        (fun r => r.seq.length)).sum ≤ 499 ∧
      ((groupRows [⟨"AAA".data, (0 : Int)⟩, ⟨"TT".data, (1 : Int)⟩]
          (group_fragments [⟨"AAA".data, (0 : Int)⟩, ⟨"TT".data, (1 : Int)⟩]) 0).map
        (fun r => r.cluster)).Nodup) :=
  ⟨by decide, group_fragments_nonsingleton_invariant
    [⟨"AAA".data, (0 : Int)⟩, ⟨"TT".data, (1 : Int)⟩] 0 (by decide)⟩

/-! ## Claim C2: completeness of packing absent bound exhaustion -/

/-- C2: when `group_fragments` exits without exhausting the safety bound
(equivalently, when its final used-set size equals the row count), every
row receives exactly one well-defined group label (its `np.empty` cell
was written), every fragment string is marked used exactly once (the used
set is duplicate-free and contains every row's sequence), and hence every
row belongs to exactly one group — the one its unique label names. -/
theorem group_fragments_complete (rows : List Row)
    (h : (packFinal rows).used.length = rows.length) :
    (∀ i, i < rows.length → (labAt (group_fragments rows) i).isSome) ∧
    (packFinal rows).used.Nodup ∧
    (∀ i (hi : i < rows.length), (rows.get ⟨i, hi⟩).seq ∈ (packFinal rows).used) := by
  have P := packFinal_packInv rows
  set seqs := rows.map (fun r => r.seq) with hseqs
  have husedsub : ∀ x ∈ (packFinal rows).used, x ∈ seqs := by
    intro x hx
    rcases P.usedToLab x hx with ⟨i, hi, heq, _⟩
    exact heq ▸ List.mem_map.mpr ⟨rows.get ⟨i, hi⟩, List.get_mem rows _ _, rfl⟩
  have hsub : (packFinal rows).used.toFinset ⊆ seqs.toFinset := by
    intro x hx
    exact List.mem_toFinset.mpr (husedsub x (List.mem_toFinset.mp hx))
  have hcard1 : (packFinal rows).used.toFinset.card = rows.length := by
    rw [List.toFinset_card_of_nodup P.usedNodup, h]
  have hlen_seqs : seqs.length = rows.length := by simp [hseqs]
  have hcard2 : seqs.toFinset.card ≤ rows.length :=
    hlen_seqs ▸ seqs.toFinset_card_le
  have heqfin : (packFinal rows).used.toFinset = seqs.toFinset :=
    Finset.eq_of_subset_of_card_le hsub (by omega)
  have hseq_nodup : seqs.Nodup := by
    have hc : seqs.dedup.length = seqs.length := by
      have h1 := List.card_toFinset seqs
      have h2 : seqs.toFinset.card = rows.length := by rw [← heqfin, hcard1]
      omega
    exact List.dedup_eq_self.mp (List.Sublist.eq_of_length (List.dedup_sublist seqs) hc)
  have hmemused : ∀ i (hi : i < rows.length),
      (rows.get ⟨i, hi⟩).seq ∈ (packFinal rows).used := by
    intro i hi
    have h1 : (rows.get ⟨i, hi⟩).seq ∈ seqs :=
      List.mem_map.mpr ⟨rows.get ⟨i, hi⟩, List.get_mem rows _ _, rfl⟩
    have h2 : (rows.get ⟨i, hi⟩).seq ∈ seqs.toFinset := List.mem_toFinset.mpr h1
    rw [← heqfin] at h2
    exact List.mem_toFinset.mp h2
  refine ⟨?_, P.usedNodup, hmemused⟩
  intro i hi
  rcases P.usedToLab _ (hmemused i hi) with ⟨j, hj, heqseq, hsome⟩
  have hij : j = i := by
    have hgj : seqs.get ⟨j, by omega⟩ = (rows.get ⟨j, hj⟩).seq := by
      simp [hseqs, List.get_eq_getElem]
    have hgi : seqs.get ⟨i, by omega⟩ = (rows.get ⟨i, hi⟩).seq := by
      simp [hseqs, List.get_eq_getElem]
    have : seqs.get ⟨j, by omega⟩ = seqs.get ⟨i, by omega⟩ := by
      rw [hgj, hgi, heqseq]
    have := List.Nodup.get_inj_iff hseq_nodup |>.mp this
    simpa using this
  rw [← hij]
  exact hsome

/-- C2 witness: two distinct short fragments — both used, both
labelled. -/
theorem group_fragments_complete_witness :
    (packFinal [⟨"AB".data, (0 : Int)⟩, ⟨"CD".data, (1 : Int)⟩]).used.length =
      ([⟨"AB".data, (0 : Int)⟩, ⟨"CD".data, (1 : Int)⟩] : List Row).length ∧
    ((∀ i, i < ([⟨"AB".data, (0 : Int)⟩, ⟨"CD".data, (1 : Int)⟩] : List Row).length →
        (labAt (group_fragments [⟨"AB".data, (0 : Int)⟩, ⟨"CD".data, (1 : Int)⟩]) i).isSome) ∧
      (packFinal [⟨"AB".data, (0 : Int)⟩, ⟨"CD".data, (1 : Int)⟩]).used.Nodup ∧
      (∀ i (hi : i < ([⟨"AB".data, (0 : Int)⟩, ⟨"CD".data, (1 : Int)⟩] : List Row).length),
        (([⟨"AB".data, (0 : Int)⟩, ⟨"CD".data, (1 : Int)⟩] : List Row).get ⟨i, hi⟩).seq ∈
          (packFinal [⟨"AB".data, (0 : Int)⟩, ⟨"CD".data, (1 : Int)⟩]).used)) :=
  ⟨by decide, group_fragments_complete [⟨"AB".data, (0 : Int)⟩, ⟨"CD".data, (1 : Int)⟩]
    (by decide)⟩

/-! ## Claim C5: termination and the pass bound -/

/-- Starting at or below the bound, the loop's final pass counter never
exceeds `bound + 1`. -/
theorem packLoop_iter_le (rows : List Row) (maxL bound : Nat) :
    ∀ (fuel : Nat) (st : PackState), st.iter ≤ bound →
      (packLoop rows maxL bound fuel st).iter ≤ bound + 1 := by
  intro fuel
  induction fuel with
  | zero => intro st h; exact le_trans h (Nat.le_succ bound)
  | succ fuel ih =>
    intro st h
    simp only [packLoop]
    by_cases hlt : st.used.length < rows.length
    · rw [if_pos hlt]
      have hit := (runPass_frame rows maxL st).1
      by_cases hb : bound < (runPass rows maxL st).iter
      · rw [if_pos hb]
        omega
      · rw [if_neg hb]
        exact ih (runPass rows maxL st) (by omega)
    · rw [if_neg hlt]
      omega

/-- With enough fuel the loop's result no longer depends on the fuel: the
safety exit fires first, so the bounded recursion computes the `while`
loop's true semantics — the loop terminates within `bound + 1` passes. -/
theorem packLoop_fuel_irrel (rows : List Row) (maxL bound : Nat) :
    ∀ (fuel₁ fuel₂ : Nat) (st : PackState), st.iter ≤ bound →
      bound + 1 ≤ st.iter + fuel₁ → bound + 1 ≤ st.iter + fuel₂ →
      packLoop rows maxL bound fuel₁ st = packLoop rows maxL bound fuel₂ st := by
  intro fuel₁
  induction fuel₁ with
  | zero => intro fuel₂ st h h1 h2; exact absurd h1 (by omega)
  | succ f ih =>
    intro fuel₂ st h h1 h2
    cases fuel₂ with
    | zero => exact absurd h2 (by omega)
    | succ f2 =>
      simp only [packLoop]
      by_cases hlt : st.used.length < rows.length
      · rw [if_pos hlt, if_pos hlt]
        have hit := (runPass_frame rows maxL st).1
        by_cases hb : bound < (runPass rows maxL st).iter
        · rw [if_pos hb, if_pos hb]
        · rw [if_neg hb, if_neg hb]
          exact ih f2 (runPass rows maxL st) (by omega) (by omega) (by omega)
      · rw [if_neg hlt, if_neg hlt]

/-- C5 (amended): `group_fragments` terminates — any fuel of at least
`3·n + 1` passes computes the same final state, because the safety exit
fires first — and it performs at most `3·n + 1` passes (not `3·n` as the
claim states: the pass that first drives the counter past `3·n` is itself
executed before the `break`, see the counterexample); when it stops, any
fragment whose sequence was never marked used is left ungrouped (its
label cell is still unwritten). -/
theorem group_fragments_terminates (rows : List Row) (fuel₁ fuel₂ : Nat)
    (h₁ : 3 * rows.length + 1 ≤ fuel₁) (h₂ : 3 * rows.length + 1 ≤ fuel₂) :
    packLoop rows MAX_LENGTH (3 * rows.length) fuel₁ (initState rows.length) =
      packLoop rows MAX_LENGTH (3 * rows.length) fuel₂ (initState rows.length) ∧
    (packFinal rows).iter ≤ 3 * rows.length + 1 ∧
    (∀ i (hi : i < rows.length), (rows.get ⟨i, hi⟩).seq ∉ (packFinal rows).used →
      labAt (group_fragments rows) i = none) := by
  refine ⟨?_, ?_, ?_⟩
  · exact packLoop_fuel_irrel rows MAX_LENGTH (3 * rows.length) fuel₁ fuel₂
      (initState rows.length) (Nat.zero_le _)
      (by show 3 * rows.length + 1 ≤ 0 + fuel₁; omega)
      (by show 3 * rows.length + 1 ≤ 0 + fuel₂; omega)
  · exact packLoop_iter_le rows MAX_LENGTH (3 * rows.length) (3 * rows.length + 1)
      (initState rows.length) (Nat.zero_le _)
  · intro i hi hnm
    rcases ho : labAt (group_fragments rows) i with _ | g
    · rfl
    · exfalso
      rcases (packFinal_packInv rows).labToUsed i (by rw [show labAt (packFinal rows).labels i = labAt (group_fragments rows) i from rfl, ho]; rfl) with ⟨h', hmem⟩
      exact hnm hmem

/-- C5 witness: one fragment, fuels 4 and 5 (both at least `3·1 + 1`). -/
theorem group_fragments_terminates_witness :
    (packLoop [⟨"A".data, (0 : Int)⟩] MAX_LENGTH 3 4 (initState 1) =
      packLoop [⟨"A".data, (0 : Int)⟩] MAX_LENGTH 3 5 (initState 1)) ∧
    (packFinal [⟨"A".data, (0 : Int)⟩]).iter ≤ 3 * 1 + 1 ∧
    (∀ i (hi : i < ([⟨"A".data, (0 : Int)⟩] : List Row).length),
      (([⟨"A".data, (0 : Int)⟩] : List Row).get ⟨i, hi⟩).seq ∉
        (packFinal [⟨"A".data, (0 : Int)⟩]).used →
      labAt (group_fragments [⟨"A".data, (0 : Int)⟩]) i = none) :=
  group_fragments_terminates [⟨"A".data, (0 : Int)⟩] 4 5 (by decide) (by decide)

/-- C5 counterexample: two rows carrying the *same* sequence string — the
used set (keyed by string) can never reach the row count, so the loop
runs until the safety exit: it performs 7 = 3·2 + 1 passes, exceeding the
claimed limit of 3·2 passes (the `iter` field counts executed passes). -/
theorem packLoop_pass_count_cex :
    (packFinal [⟨"A".data, (0 : Int)⟩, ⟨"A".data, (0 : Int)⟩]).iter = 7 ∧
    ¬ ((packFinal [⟨"A".data, (0 : Int)⟩, ⟨"A".data, (0 : Int)⟩]).iter ≤ 3 * 2) := by
  refine ⟨by decide, by decide⟩

/-! ## Claim C8: the aggressive merger -/

/-- The batch loop only inspects the position counter modulo 3. -/
theorem applyBatches_add3 {α : Type} :
    ∀ (l : List Nat) (i new : Nat) (d : List (AggRow α)),
      applyBatches (i + 3) new l d = applyBatches i new l d
  | [], _, _, _ => rfl
  | gid :: rest, i, new, d => by
    simp only [applyBatches]
    have hmod : (i + 3) % 3 = i % 3 := by omega
    rw [hmod]
    by_cases h : i % 3 = 0
    · rw [if_pos h, if_pos h]
      exact applyBatches_add3 rest (i + 1) gid d
    · rw [if_neg h, if_neg h]
      exact applyBatches_add3 rest (i + 1) new _

/-- An id outside the singleton list is never remapped. -/
theorem aggMapFn_of_not_mem : ∀ (l : List Nat) (g : Nat), g ∉ l → aggMapFn l g = g
  | [], _, _ => rfl
  | [_], _, _ => rfl
  | [a, b], g, hg => by
    have : g ≠ b := by intro h; exact hg (by simp [h])
    simp [aggMapFn, this]
  | a :: b :: c :: rest, g, hg => by
    have hb : g ≠ b := by intro h; exact hg (by simp [h])
    have hc : g ≠ c := by intro h; exact hg (by simp [h])
    have hrest : g ∉ rest := by intro h; exact hg (by simp [h])
    simp only [aggMapFn]
    rw [if_neg (by simp [hb, hc])]
    exact aggMapFn_of_not_mem rest g hrest

/-- On a duplicate-free singleton list, the batch loop is the pointwise
group-id remapping `aggMapFn`. -/
theorem applyBatches_eq_map {α : Type} :
    ∀ (sids : List Nat), sids.Nodup → ∀ (nw : Nat) (d : List (AggRow α)),
      applyBatches 0 nw sids d =
        d.map (fun r => ⟨aggMapFn sids r.group, r.rest⟩)
  | [], _, nw, d => by
    have hf : (fun r : AggRow α => ({ group := aggMapFn [] r.group, rest := r.rest } :
        AggRow α)) = fun r => r := by
      funext r
      rfl
    simp [applyBatches, hf]
  | [a], _, nw, d => by
    have hf : (fun r : AggRow α => ({ group := aggMapFn [a] r.group, rest := r.rest } :
        AggRow α)) = fun r => r := by
      funext r
      rfl
    simp [applyBatches, hf]
  | [a, b], _, nw, d => by
    have hf : ∀ r : AggRow α, (if r.group = b then (⟨a, r.rest⟩ : AggRow α) else r) =
        ⟨aggMapFn [a, b] r.group, r.rest⟩ := by
      intro r
      by_cases hr : r.group = b
      · simp [aggMapFn, hr]
      · simp [aggMapFn, hr]
    simp [applyBatches, hf]
  | a :: b :: c :: rest, hnd, nw, d => by
    have hab : a ≠ b := by
      intro h; exact (List.nodup_cons.mp hnd).1 (by simp [h])
    have hac : a ≠ c := by
      intro h; exact (List.nodup_cons.mp hnd).1 (by simp [h])
    have harest : a ∉ rest := by
      intro h; exact (List.nodup_cons.mp hnd).1 (by simp [h])
    have hnd2 := (List.nodup_cons.mp hnd).2
    have hbc : b ≠ c := by
      intro h; exact (List.nodup_cons.mp hnd2).1 (by simp [h])
    have hnd3 := (List.nodup_cons.mp hnd2).2
    have hndrest : rest.Nodup := (List.nodup_cons.mp hnd3).2
    have h1 : applyBatches 0 nw (a :: b :: c :: rest) d =
        applyBatches 0 a rest
          ((d.map (fun r => if r.group = b then ⟨a, r.rest⟩ else r)).map
            (fun r => if r.group = c then ⟨a, r.rest⟩ else r)) := by
      show applyBatches 0 nw (a :: b :: c :: rest) d =
        applyBatches 0 a rest _
      rw [← applyBatches_add3 rest 0 a]
      simp [applyBatches]
    rw [h1, applyBatches_eq_map rest hndrest a _, List.map_map, List.map_map]
    refine List.map_congr_left (fun r _ => ?_)
    by_cases hb : r.group = b
    · simp [Function.comp, hb, hac, aggMapFn, aggMapFn_of_not_mem rest a harest]
    · by_cases hc : r.group = c
      · simp [Function.comp, hb, hc, Ne.symm hbc, aggMapFn, aggMapFn_of_not_mem rest a harest]
      · simp [Function.comp, hb, hc, aggMapFn]

/-- Mapping group ids can only reduce the number of distinct ids. -/
theorem dedup_length_map_le (l : List Nat) (f : Nat → Nat) :
    (l.map f).dedup.length ≤ l.dedup.length := by
  have hsub : (l.map f).toFinset ⊆ l.toFinset.image f := by
    intro x hx
    rcases List.mem_map.mp (List.mem_toFinset.mp hx) with ⟨a, ha, rfl⟩
    exact Finset.mem_image.mpr ⟨a, List.mem_toFinset.mpr ha, rfl⟩
  have h1 := List.card_toFinset (l.map f)
  have h2 := List.card_toFinset l
  have h3 := Finset.card_le_card hsub
  have h4 := Finset.card_image_le (s := l.toFinset) (f := f)
  omega

/-- The singleton list is duplicate-free. -/
theorem singletonIds_nodup (gs : List Nat) : (singletonIds gs).Nodup := by
  refine List.Nodup.filter _ ?_
  have hperm : (gs.dedup.insertionSort (fun a b => a ≤ b)).Perm gs.dedup :=
    List.perm_insertionSort _ _
  exact (hperm.nodup_iff).mpr (List.nodup_dedup gs)

/-- The singleton list is sorted ascending — the order
`df.groupby("Group")` yields keys in. -/
theorem singletonIds_sorted (gs : List Nat) :
    List.Sorted (fun a b => a ≤ b) (singletonIds gs) := by
  refine List.Pairwise.sublist (List.filter_sublist _) ?_
  exact List.sorted_insertionSort _ _

/-- Membership in the singleton list is exactly "this id labels one
row". -/
theorem singletonIds_mem (gs : List Nat) (g : Nat) :
    g ∈ singletonIds gs ↔ gs.count g = 1 := by
  unfold singletonIds
  rw [List.mem_filter]
  constructor
  · intro h
    simpa using h.2
  · intro h
    refine ⟨?_, by simpa using h⟩
    have hg : g ∈ gs := by
      have : 0 < gs.count g := by omega
      exact List.count_pos_iff.mp this
    have : g ∈ gs.dedup := List.mem_dedup.mpr hg
    exact ((List.perm_insertionSort (fun a b => a ≤ b) gs.dedup).symm.mem_iff).mp this

/-- C8 (amended): `apply_aggressive_grouping` takes exactly the group ids
whose groups contain a single row — in *ascending id order* (the order
`groupby` produces), not first-appearance order as the claim states —
partitions them into consecutive batches of 3 (trailing batch of 1 or 2
included), and remaps every batch member's group id to the first id of
its batch, leaving every other group id and all non-`Group` columns
unchanged (the whole table is a pointwise group-id remapping); the number
of distinct group ids never increases. -/
theorem apply_aggressive_characterization {α : Type} (d : List (AggRow α)) :
    apply_aggressive_grouping d =
      d.map (fun r =>
        ⟨aggMapFn (singletonIds (d.map (fun x => x.group))) r.group, r.rest⟩) ∧
    List.Sorted (fun a b => a ≤ b) (singletonIds (d.map (fun x => x.group))) ∧
    (∀ g, g ∈ singletonIds (d.map (fun x => x.group)) ↔
      (d.map (fun x => x.group)).count g = 1) ∧
    (∀ g, g ∉ singletonIds (d.map (fun x => x.group)) →
      aggMapFn (singletonIds (d.map (fun x => x.group))) g = g) ∧
    ((apply_aggressive_grouping d).map (fun r => r.group)).dedup.length ≤
      (d.map (fun r => r.group)).dedup.length := by
  have hmap := applyBatches_eq_map (singletonIds (d.map (fun x => x.group)))
    (singletonIds_nodup _) 0 d
  refine ⟨hmap, singletonIds_sorted _, fun g => singletonIds_mem _ g,
    fun g hg => aggMapFn_of_not_mem _ g hg, ?_⟩
  have hgroups : (apply_aggressive_grouping d).map (fun r => r.group) =
      (d.map (fun x => x.group)).map
        (aggMapFn (singletonIds (d.map (fun x => x.group)))) := by
    rw [show apply_aggressive_grouping d =
      applyBatches 0 0 (singletonIds (d.map (fun x => x.group))) d from rfl, hmap,
      List.map_map, List.map_map]
    rfl
  rw [hgroups]
  exact dedup_length_map_le _ _

/-- C8 witness: a concrete instantiation of the remapping
characterization. -/
theorem apply_aggressive_witness :
    apply_aggressive_grouping ([⟨4, 10⟩, ⟨6, 11⟩] : List (AggRow Nat)) =
      ([⟨4, 10⟩, ⟨6, 11⟩] : List (AggRow Nat)).map (fun r =>
        ⟨aggMapFn (singletonIds (([⟨4, 10⟩, ⟨6, 11⟩] : List (AggRow Nat)).map
          (fun x => x.group))) r.group, r.rest⟩) :=
  (apply_aggressive_characterization ([⟨4, 10⟩, ⟨6, 11⟩] : List (AggRow Nat))).1

/-- C8 counterexample: on a table with group column `[7, 3, 3, 5]` the
singleton ids are 7 and 5; `groupby` processes them sorted (`[5, 7]`,
merging 7 into 5), while the claim's "original relative order" (`[7, 5]`)
would merge 5 into 7 — the two disagree. -/
theorem apply_aggressive_order_cex :
    apply_aggressive_grouping ([⟨7, 0⟩, ⟨3, 1⟩, ⟨3, 2⟩, ⟨5, 3⟩] : List (AggRow Nat)) =
      ([⟨5, 0⟩, ⟨3, 1⟩, ⟨3, 2⟩, ⟨5, 3⟩] : List (AggRow Nat)) ∧
    aggressiveSpec ([⟨7, 0⟩, ⟨3, 1⟩, ⟨3, 2⟩, ⟨5, 3⟩] : List (AggRow Nat)) =
      ([⟨7, 0⟩, ⟨3, 1⟩, ⟨3, 2⟩, ⟨7, 3⟩] : List (AggRow Nat)) ∧
    apply_aggressive_grouping ([⟨7, 0⟩, ⟨3, 1⟩, ⟨3, 2⟩, ⟨5, 3⟩] : List (AggRow Nat)) ≠
      aggressiveSpec ([⟨7, 0⟩, ⟨3, 1⟩, ⟨3, 2⟩, ⟨5, 3⟩] : List (AggRow Nat)) := by
  refine ⟨by decide, by decide, by decide⟩

/-! ## Claim C9: the distance-stage progress cadence -/

/-- Exact count of the multiples of `s` below `n`. -/
theorem length_filter_mod (s : Nat) (hs : 0 < s) :
    ∀ n : Nat, ((List.range n).filter (fun i => decide (i % s = 0))).length =
      (n + s - 1) / s := by
  intro n
  induction n with
  | zero => simp [Nat.div_eq_of_lt (by omega : s - 1 < s)]
  | succ n ih =>
    rw [List.range_succ, List.filter_append, List.length_append, ih]
    by_cases h : n % s = 0
    · have hfil : (List.filter (fun i => decide (i % s = 0)) [n]).length = 1 := by
        simp [List.filter_cons, h]
      rw [hfil]
      obtain ⟨q, rfl⟩ := Nat.dvd_of_mod_eq_zero h
      have e1 : s * q + s - 1 = s * q + (s - 1) := by omega
      have e2 : s * q + 1 + s - 1 = s * (q + 1) := by
        have hh : s * (q + 1) = s * q + s := by ring
        omega
      rw [e1, e2, Nat.mul_add_div hs, Nat.div_eq_of_lt (by omega : s - 1 < s),
        Nat.mul_div_cancel_left _ hs]
    · have hfil : (List.filter (fun i => decide (i % s = 0)) [n]).length = 0 := by
        simp [List.filter_cons, h]
      rw [hfil]
      have hq : n = s * (n / s) + n % s := (Nat.div_add_mod n s).symm
      have hr : 0 < n % s ∧ n % s < s := ⟨Nat.pos_of_ne_zero h, Nat.mod_lt _ hs⟩
      have e1 : n + s - 1 = s * (n / s) + (n % s + s - 1) := by omega
      have e2 : n + 1 + s - 1 = s * (n / s) + (n % s + s) := by omega
      rw [e1, e2, Nat.mul_add_div hs, Nat.mul_add_div hs]
      have d1 : (n % s + s - 1) / s = 1 := by
        have e3 : n % s + s - 1 = s * 1 + (n % s - 1) := by omega
        rw [e3, Nat.mul_add_div hs, Nat.div_eq_of_lt (by omega)]
      have d2 : (n % s + s) / s = 1 := by
        have e3 : n % s + s = s * 1 + n % s := by omega
        rw [e3, Nat.mul_add_div hs, Nat.div_eq_of_lt (by omega)]
      omega

/-- The distance stage emits at most 200 progress values. -/
theorem distanceEmissions_length_le (n : Nat) : (distanceEmissions n).length ≤ 200 := by
  unfold distanceEmissions distCallIdxs
  rw [List.length_append, List.length_map]
  rcases Nat.eq_zero_or_pos n with rfl | hn
  · simp
  · have hs : 0 < progStep n := by simp [progStep]
    rw [length_filter_mod (progStep n) hs n]
    have hcase : (progStep n = 1 ∧ n / 100 ≤ 1) ∨ (progStep n = n / 100 ∧ 1 ≤ n / 100) := by
      simp only [progStep]
      omega
    have hdiv : n = 100 * (n / 100) + n % 100 := (Nat.div_add_mod n 100).symm
    have hlt : n % 100 < 100 := Nat.mod_lt _ (by omega)
    have hns : n ≤ 199 * progStep n := by
      rcases hcase with ⟨h, h1⟩ | ⟨h, h1⟩
      · rw [h]
        omega
      · rw [h]
        omega
    have hfin : (n + progStep n - 1) / progStep n < 200 := by
      rw [Nat.div_lt_iff_lt_mul hs]
      omega
    simp only [List.length_cons, List.length_nil]
    omega

/-- Every distance-stage percentage lies in `[2, 90]`. -/
theorem distanceEmissions_mem_bounds (n : Nat) :
    ∀ v ∈ distanceEmissions n, 2 ≤ v ∧ v ≤ 90 := by
  intro v hv
  rcases List.mem_append.mp hv with hv | hv
  · rcases List.mem_map.mp hv with ⟨i, hi, rfl⟩
    have hin : i < n := List.mem_range.mp (List.mem_filter.mp hi).1
    have hn0 : (0 : ℚ) < (n : ℚ) := by
      exact_mod_cast lt_of_le_of_lt (Nat.zero_le i) hin
    constructor
    · have h0 : (0 : ℚ) ≤ (i : ℚ) / (n : ℚ) * 80 := by positivity
      linarith
    · have h1 : (i : ℚ) / (n : ℚ) ≤ 1 := by
        rw [div_le_one hn0]
        exact_mod_cast le_of_lt hin
      have h2 : (i : ℚ) / (n : ℚ) * 80 ≤ 1 * 80 :=
        mul_le_mul_of_nonneg_right h1 (by norm_num)
      linarith
  · have : v = 90 := by simpa using hv
    subst this
    norm_num

/-- C9 (amended): for every fragment count `n`, `compute_distance_matrix`
invokes the progress callback at most 200 times (not 101 as the claim
states: for `n` just below a multiple of 100 the in-loop stride emits up
to 199 updates — see the counterexample), and every emitted percentage
lies in the 2–90 span of overall pipeline progress. -/
theorem compute_distance_progress (n : Nat) :
    (distanceEmissions n).length ≤ 200 ∧
    (∀ v ∈ distanceEmissions n, 2 ≤ v ∧ v ≤ 90) :=
  ⟨distanceEmissions_length_le n, distanceEmissions_mem_bounds n⟩

/-- C9 witness: a concrete instantiation of the cadence bound. -/
theorem compute_distance_progress_witness :
    (distanceEmissions 5).length ≤ 200 :=
  (compute_distance_progress 5).1

/-- C9 counterexample: at `n = 199` the stride is `max(1, 199 // 100) = 1`,
so the loop emits one update per row — 199 of them, plus the final `90`:
200 invocations, far above the claimed bound of 101. -/
theorem compute_distance_cadence_cex :
    (distanceEmissions 199).length = 200 ∧
    ¬ ((distanceEmissions 199).length ≤ 101) := by
  refine ⟨by decide, by decide⟩

/-! ## Claim C10: the progress sequence of a full pipeline run -/

/-- The distance-stage emissions are non-decreasing. -/
theorem distanceEmissions_chain (n : Nat) :
    List.Chain' (· ≤ ·) (distanceEmissions n) := by
  unfold distanceEmissions
  rw [List.chain'_append]
  refine ⟨?_, List.chain'_singleton _, ?_⟩
  · refine List.Pairwise.chain' ?_
    rw [List.pairwise_map]
    have hpw : (distCallIdxs n).Pairwise (· < ·) :=
      (List.pairwise_lt_range n).sublist (List.filter_sublist _)
    refine hpw.imp ?_
    intro i j hij
    have hmono : (i : ℚ) / (n : ℚ) ≤ (j : ℚ) / (n : ℚ) := by
      rcases Nat.eq_zero_or_pos n with rfl | hn
      · simp
      · have hn' : (0 : ℚ) < (n : ℚ) := by exact_mod_cast hn
        exact (div_le_div_iff_of_pos_right hn').mpr (by exact_mod_cast le_of_lt hij)
    have := mul_le_mul_of_nonneg_right hmono (by norm_num : (0 : ℚ) ≤ 80)
    linarith
  · intro x hx y hy
    have hy' : 90 = y := by simpa using hy
    subst hy'
    have hxmem : x ∈ (distCallIdxs n).map (fun i : Nat => (i : ℚ) / (n : ℚ) * 80 + 2) :=
      List.mem_of_mem_getLast? hx
    exact (distanceEmissions_mem_bounds n x (by
      unfold distanceEmissions
      exact List.mem_append_left _ hxmem)).2

/-- Between passes, the used set never exceeds the row count. -/
theorem packInv_used_le {rows : List Row} {maxL : Nat} {st : PackState}
    (h : PackInv rows maxL st) : st.used.length ≤ rows.length := by
  have hsub : st.used.toFinset ⊆ (rows.map (fun r => r.seq)).toFinset := by
    intro x hx
    rcases h.usedToLab x (List.mem_toFinset.mp hx) with ⟨i, hi, heq, _⟩
    exact List.mem_toFinset.mpr
      (heq ▸ List.mem_map.mpr ⟨rows.get ⟨i, hi⟩, List.get_mem rows _ _, rfl⟩)
  have h1 : st.used.toFinset.card = st.used.length :=
    List.toFinset_card_of_nodup h.usedNodup
  have h2 : (rows.map (fun r => r.seq)).toFinset.card ≤ rows.length := by
    have := (rows.map (fun r => r.seq)).toFinset_card_le
    simpa using this
  have h3 := Finset.card_le_card hsub
  omega

/-- A packing percentage is at least 90. -/
theorem progress_val_ge (u m : Nat) : (90 : ℚ) ≤ 90 + (u : ℚ) / (m : ℚ) * 5 := by
  have : (0 : ℚ) ≤ (u : ℚ) / (m : ℚ) * 5 := by positivity
  linarith

/-- A packing percentage with a full denominator is at most 95. -/
theorem progress_val_le (u m : Nat) (h : u ≤ m) :
    90 + (u : ℚ) / (m : ℚ) * 5 ≤ 95 := by
  rcases Nat.eq_zero_or_pos m with rfl | hm
  · have hu : u = 0 := by omega
    subst hu
    norm_num
  · have hm' : (0 : ℚ) < (m : ℚ) := by exact_mod_cast hm
    have h1 : (u : ℚ) / (m : ℚ) ≤ 1 := by
      rw [div_le_one hm']
      exact_mod_cast h
    have := mul_le_mul_of_nonneg_right h1 (by norm_num : (0 : ℚ) ≤ 5)
    linarith

/-- Packing percentages grow with the used count. -/
theorem progress_val_mono (u v m : Nat) (h : u ≤ v) :
    90 + (u : ℚ) / (m : ℚ) * 5 ≤ 90 + (v : ℚ) / (m : ℚ) * 5 := by
  rcases Nat.eq_zero_or_pos m with rfl | hm
  · simp
  · have hm' : (0 : ℚ) < (m : ℚ) := by exact_mod_cast hm
    have : (u : ℚ) / (m : ℚ) ≤ (v : ℚ) / (m : ℚ) :=
      (div_le_div_iff_of_pos_right hm').mpr (by exact_mod_cast h)
    have := mul_le_mul_of_nonneg_right this (by norm_num : (0 : ℚ) ≤ 5)
    linarith

/-- A pass only grows the used set's size. -/
theorem runPass_used_le {rows : List Row} {maxL : Nat} {st : PackState}
    (hinv : PackInv rows maxL st) :
    st.used.length ≤ (runPass rows maxL st).used.length := by
  have hinv2 := runPass_packInv rows maxL st hinv
  have hsub := (runPass_frame rows maxL st).2
  have h1 : st.used.toFinset.card = st.used.length :=
    List.toFinset_card_of_nodup hinv.usedNodup
  have h2 : (runPass rows maxL st).used.toFinset.card =
      (runPass rows maxL st).used.length :=
    List.toFinset_card_of_nodup hinv2.usedNodup
  have h3 : st.used.toFinset ⊆ (runPass rows maxL st).used.toFinset := fun x hx =>
    List.mem_toFinset.mpr (hsub (List.mem_toFinset.mp hx))
  have := Finset.card_le_card h3
  omega

/-- Every packing-stage emission is `90 + (u/n)·5` for a used count `u`
between the entry state's and the row count. -/
theorem packTrace_mem (rows : List Row) (maxL bound : Nat) :
    ∀ (fuel : Nat) (st : PackState), PackInv rows maxL st →
      ∀ v ∈ packTrace rows maxL bound fuel st,
        ∃ u : Nat, st.used.length ≤ u ∧ u ≤ rows.length ∧
          v = 90 + (u : ℚ) / (rows.length : ℚ) * 5 := by
  intro fuel
  induction fuel with
  | zero => intro st _ v hv; simp [packTrace] at hv
  | succ fuel ih =>
    intro st hinv v hv
    simp only [packTrace] at hv
    by_cases hlt : st.used.length < rows.length
    · rw [if_pos hlt] at hv
      have hinv2 := runPass_packInv rows maxL st hinv
      have hle2 := runPass_used_le hinv
      by_cases hb : bound < (runPass rows maxL st).iter
      · rw [if_pos hb] at hv
        have hveq : v = 90 + ((runPass rows maxL st).used.length : ℚ) /
            (rows.length : ℚ) * 5 := by simpa using hv
        exact ⟨(runPass rows maxL st).used.length, hle2, packInv_used_le hinv2, hveq⟩
      · rw [if_neg hb] at hv
        rcases List.mem_cons.mp hv with hv | hv
        · exact ⟨(runPass rows maxL st).used.length, hle2, packInv_used_le hinv2, hv⟩
        · rcases ih (runPass rows maxL st) hinv2 v hv with ⟨u, hu1, hu2, hu3⟩
          exact ⟨u, le_trans hle2 hu1, hu2, hu3⟩
    · rw [if_neg hlt] at hv
      simp at hv

/-- The packing-stage emissions are non-decreasing. -/
theorem packTrace_chain (rows : List Row) (maxL bound : Nat) :
    ∀ (fuel : Nat) (st : PackState), PackInv rows maxL st →
      List.Chain' (· ≤ ·) (packTrace rows maxL bound fuel st) := by
  intro fuel
  induction fuel with
  | zero => intro st _; simp [packTrace]
  | succ fuel ih =>
    intro st hinv
    simp only [packTrace]
    by_cases hlt : st.used.length < rows.length
    · rw [if_pos hlt]
      have hinv2 := runPass_packInv rows maxL st hinv
      by_cases hb : bound < (runPass rows maxL st).iter
      · rw [if_pos hb]
        exact List.chain'_singleton _
      · rw [if_neg hb]
        rw [List.chain'_cons']
        refine ⟨?_, ih (runPass rows maxL st) hinv2⟩
        intro y hy
        rcases packTrace_mem rows maxL bound fuel (runPass rows maxL st) hinv2 y
          (List.mem_of_mem_head? hy) with ⟨u, hu1, _, rfl⟩
        exact progress_val_mono _ _ _ hu1
    · rw [if_neg hlt]
      simp

/-- C10: across one successful pipeline run — for any input table and any
cluster assignment the clustering stage produces — the sequence of values
handed to the progress callback is non-decreasing, every value lies in
[0, 100], and the final value is exactly 100. -/
theorem pipeline_progress (rows : List InRow) (clusters : List Int)
    (_hlen : clusters.length = (dfPackable rows).length) :
    List.Chain' (· ≤ ·) (pipeline_emissions rows clusters) ∧
    (∀ v ∈ pipeline_emissions rows clusters, 0 ≤ v ∧ v ≤ 100) ∧
    (pipeline_emissions rows clusters).getLast? = some 100 := by
  set pr := packInput rows clusters with hpr
  set T := packTrace pr MAX_LENGTH (3 * pr.length) (3 * pr.length + 1)
    (initState pr.length) with hT
  set D := distanceEmissions (dfPackable rows).length with hD
  have hbody : pipeline_emissions rows clusters =
      [0, 2] ++ D ++ 90 :: (T ++ [98, 100]) := rfl
  have hTinv := initState_packInv pr MAX_LENGTH
  have hTmem : ∀ v ∈ T, (90 : ℚ) ≤ v ∧ v ≤ 95 := by
    intro v hv
    rcases packTrace_mem pr MAX_LENGTH (3 * pr.length) (3 * pr.length + 1)
      (initState pr.length) hTinv v hv with ⟨u, _, hu2, rfl⟩
    exact ⟨progress_val_ge u pr.length, progress_val_le u pr.length hu2⟩
  have hDmem : ∀ v ∈ D, (2 : ℚ) ≤ v ∧ v ≤ 90 :=
    distanceEmissions_mem_bounds (dfPackable rows).length
  have htail_mem : ∀ v ∈ (90 : ℚ) :: (T ++ [98, 100]), 90 ≤ v ∧ v ≤ 100 := by
    intro v hv
    rcases List.mem_cons.mp hv with rfl | hv
    · norm_num
    · rcases List.mem_append.mp hv with hv | hv
      · rcases hTmem v hv with ⟨h1, h2⟩
        exact ⟨h1, by linarith⟩
      · rcases List.mem_cons.mp hv with rfl | hv
        · norm_num
        · have : v = 100 := by simpa using hv
          subst this
          norm_num
  refine ⟨?_, ?_, ?_⟩
  · rw [hbody, List.chain'_append]
    refine ⟨?_, ?_, ?_⟩
    · rw [List.chain'_append]
      refine ⟨by norm_num [List.chain'_cons], distanceEmissions_chain _, ?_⟩
      intro x hx y hy
      have hxmem := List.mem_of_mem_getLast? hx
      have hxle : x ≤ 2 := by
        rcases List.mem_cons.mp hxmem with rfl | hv
        · norm_num
        · have : x = 2 := by simpa using hv
          simp [this]
      linarith [(hDmem y (List.mem_of_mem_head? hy)).1]
    · rw [List.chain'_cons']
      refine ⟨?_, ?_⟩
      · intro y hy
        have hymem := List.mem_of_mem_head? hy
        rcases List.mem_append.mp hymem with hv | hv
        · exact (hTmem y hv).1
        · rcases List.mem_cons.mp hv with rfl | hv
          · norm_num
          · have : y = 100 := by simpa using hv
            subst this
            norm_num
      · rw [List.chain'_append]
        refine ⟨packTrace_chain pr MAX_LENGTH (3 * pr.length) (3 * pr.length + 1)
          (initState pr.length) hTinv, by norm_num [List.chain'_cons], ?_⟩
        intro x hx y hy
        have hy' : 98 = y := by simpa using hy
        subst hy'
        have := (hTmem x (List.mem_of_mem_getLast? hx)).2
        linarith
    · intro x hx y hy
      have hy' : 90 = y := by simpa using hy
      subst hy'
      have hxmem := List.mem_of_mem_getLast? hx
      rcases List.mem_append.mp hxmem with hv | hv
      · rcases List.mem_cons.mp hv with rfl | hv
        · norm_num
        · have : x = 2 := by simpa using hv
          subst this
          norm_num
      · exact (hDmem x hv).2
  · intro v hv
    rw [hbody] at hv
    rcases List.mem_append.mp hv with hv | hv
    · rcases List.mem_append.mp hv with hv | hv
      · rcases List.mem_cons.mp hv with rfl | hv
        · norm_num
        · have : v = 2 := by simpa using hv
          subst this
          norm_num
      · rcases hDmem v hv with ⟨h1, h2⟩
        exact ⟨by linarith, by linarith⟩
    · rcases htail_mem v hv with ⟨h1, h2⟩
      exact ⟨by linarith, h2⟩
  · have hshape : pipeline_emissions rows clusters =
        ([0, 2] ++ D ++ 90 :: (T ++ [98])) ++ [100] := by
      rw [hbody]
      simp [List.append_assoc, List.cons_append]
    rw [hshape, List.getLast?_concat]

/-- C10 witness: the empty table with the empty cluster assignment. -/
theorem pipeline_progress_witness :
    List.Chain' (· ≤ ·) (pipeline_emissions [] []) ∧
    (∀ v ∈ pipeline_emissions [] [], 0 ≤ v ∧ v ≤ 100) ∧
    (pipeline_emissions [] []).getLast? = some 100 :=
  pipeline_progress [] [] (by decide)

end DNAFrag
